import Mathlib

/-!
# Verification of the `pycoordinator` dependency-graph coordinator

Shallow embedding of `coordinator/graphs.py`, `coordinator/steps.py` and
`coordinator/coordinator.py`.  Python dicts are modelled as insertion-ordered
association lists, Python lists as Lean lists, Python sets as lists whose
relevant observations are membership (and, where the source inspects sizes,
deduplicated lists).  Fallible Python code (raising exceptions) is modelled
with `Except`.
-/

deriving instance DecidableEq for Except

namespace PyCoord

variable {α : Type} [DecidableEq α]

/-- Association-list lookup, mirroring a Python `dict[k]` access
(first binding wins, as dict keys are unique). -/
def lookupA : List (α × β) → α → Option β
  | [], _ => none
  | (k, v) :: rest, x => if x = k then some v else lookupA rest x

/-- Replace the value bound to the first occurrence of key `x`. -/
def updateA (f : β → β) (x : α) : List (α × β) → List (α × β)
  | [] => []
  | (k, v) :: rest => if x = k then (k, f v) :: rest else (k, v) :: updateA f x rest

/-- Remove the binding of key `x` (all occurrences; dict keys are unique). -/
def removeA (x : α) : List (α × β) → List (α × β)
  | [] => []
  | (k, v) :: rest => if x = k then removeA x rest else (k, v) :: removeA x rest

/-- Erase the first occurrence of `x`, as Python's `list.remove` does
(but silently, `Graph.remove` guards with `if u in self.G[w]`). -/
def eraseFirst (x : α) : List α → List α
  | [] => []
  | y :: rest => if y = x then rest else y :: eraseFirst x rest

@[simp] theorem updateA_nil (f : β → β) (x : α) : updateA f x ([] : List (α × β)) = [] := rfl

/-- `class Graph`: a directed graph stored as a dict from node to the
ordered list of its successors (`self.G`).  The `cc` cache field is omitted:
every mutation resets it to `None` in the source, so `scc`/`cyclic` always
see a freshly computed (or coherent cached) value. -/
structure Graph (α : Type) where
  adj : List (α × List α)

namespace Graph

variable (g : Graph α)

/-- The node list (`self.G` keys, `nodes()` as a set). -/
def nodesList : List α := g.adj.map Prod.fst

/-- Membership of a node (`__contains__`). -/
def hasNode (u : α) : Bool := (lookupA g.adj u).isSome

/-- Successor list `self.G[u]` (empty if `u` is not a node). -/
def succ (u : α) : List α := (lookupA g.adj u).getD []

/-- `edges()` before the final `set(...)` conversion: the list `ed`. -/
def edgesL : List (α × α) := g.adj.flatMap (fun p => p.2.map (fun v => (p.1, v)))

/-- `edges()`: the deduplicated edge list (the Python `set`). -/
def edgesD [DecidableEq α] : List (α × α) := g.edgesL.dedup

/-- `is_edge(u, v)` (total-node variant: the `None` guards of the source
concern only Python's `None` value, which does not inhabit the node type). -/
def isEdge [DecidableEq α] (u v : α) : Bool :=
  if (lookupA g.adj u).isSome ∧ (lookupA g.adj v).isSome then
    decide (v ∈ g.succ u)
  else false

/-- `roots()`: keys never occurring as an edge target. -/
def roots [DecidableEq α] : List α :=
  g.nodesList.filter (fun u => decide (∀ p ∈ g.adj, u ∉ p.2))

/-- `leaves()`: keys with an empty successor list. -/
def leaves : List α := (g.adj.filter (fun p => p.2.isEmpty)).map Prod.fst

/-- `intermediates()`: the set `s`, built by adding every node with at
least one outgoing edge together with that node's direct successors.
Modelled as a list whose membership is the set's membership. -/
def intermediates : List α :=
  (g.adj.filter (fun p => !p.2.isEmpty)).flatMap (fun p => p.1 :: p.2)

/-- `add(u)` (node form, `v is None`). -/
def addNode [DecidableEq α] (u : α) : Graph α :=
  if (lookupA g.adj u).isSome then g else ⟨g.adj ++ [(u, [])]⟩

/-- `add(u, v)` (edge form): ensure both endpoints exist, then append `v`
to `G[u]` (duplicates allowed, as in the source). -/
def addEdge [DecidableEq α] (u v : α) : Graph α :=
  let g2 := (g.addNode u).addNode v
  ⟨updateA (fun vs => vs ++ [v]) u g2.adj⟩

/-- `remove(u, v)` (edge form): erase the first occurrence of `v` from
`G[u]` when `u` is a node, else no-op. -/
def removeEdge [DecidableEq α] (u v : α) : Graph α :=
  if (lookupA g.adj u).isSome then ⟨updateA (fun vs => eraseFirst v vs) u g.adj⟩ else g

/-- `remove(u)` (node form): drop the key `u` and erase the first
occurrence of `u` from every other adjacency list; no-op if `u` absent. -/
def removeNode [DecidableEq α] (u : α) : Graph α :=
  if (lookupA g.adj u).isSome then
    ⟨(removeA u g.adj).map (fun p => (p.1, eraseFirst u p.2))⟩
  else g

/-- `reverse()`: a fresh graph receiving `add(v, u)` for each edge of the
deduplicated edge set.  (Python iterates a `set`; the iteration order is
unspecified there, and no property below depends on it.) -/
def reverse [DecidableEq α] : Graph α :=
  g.edgesD.foldl (fun h e => h.addEdge e.2 e.1) ⟨[]⟩

/-- Well-formedness maintained by every construction path in the source:
dict keys are unique. -/
def WF : Prop := (g.adj.map Prod.fst).Nodup

end Graph

/-- Extensional equality of graphs as observed through the node set and the
edge set (the observations `nodes()` and `edges()` expose). -/
def GEquiv (g h : Graph α) : Prop :=
  (∀ x, x ∈ g.nodesList ↔ x ∈ h.nodesList) ∧
    ∀ e : α × α, e ∈ g.edgesL ↔ e ∈ h.edgesL

/-- The spec's literal description of `intermediates()`: the union of the set
of nodes with at least one outgoing edge and the set of direct successors of
those nodes. -/
def intermediatesSpec (g : Graph α) (x : α) : Prop :=
  (∃ p ∈ g.adj, p.2 ≠ [] ∧ x = p.1) ∨ ∃ p ∈ g.adj, p.2 ≠ [] ∧ x ∈ p.2

/-! ## `Graph.path`

The Python recursion terminates because the `head` argument grows at each
level; the embedding makes that explicit with a fuel argument (the top-level
entry point passes the node count plus one, shown sufficient below).  The
exceptional outcomes are kept apart: `keyError` is the `KeyError` the source
raises from `bfs[w]` after a `del` when a successor is duplicated, `noFuel`
is the modelling artifact for exhausted fuel. -/

inductive PathErr where
  | keyError : PathErr
  | noFuel : PathErr
deriving DecidableEq, Repr

/-- Left-to-right evaluation of a fallible function over a list, as a Python
dict comprehension evaluates its values (first error propagates). -/
def evalMany (f : γ → Except ε β) : List γ → Except ε (List β)
  | [] => .ok []
  | w :: ws =>
    match f w with
    | .error e => .error e
    | .ok r =>
      match evalMany f ws with
      | .error e => .error e
      | .ok rs => .ok (r :: rs)

/-- The `for w in self.G[u]` result loop of `path`: drop (`del`) missing or
short sub-paths, return early on a length-2 sub-path, otherwise keep the
shortest `[u] + bfs[w]` found so far. -/
def pathLoop (u : α) : List α → List (α × Option (List α)) → Option (List α) →
    Except PathErr (Option (List α))
  | [], _, p => .ok p
  | w :: ws, bfs, p =>
    match lookupA bfs w with
    | none => .error .keyError
    | some r =>
      if r = none ∨ (r.getD []).length < 2 then
        pathLoop u ws (removeA w bfs) p
      else if (r.getD []).length = 2 then
        .ok (some (u :: r.getD []))
      else if p = none ∨ (r.getD []).length < (p.getD []).length then
        pathLoop u ws bfs (some (u :: r.getD []))
      else
        pathLoop u ws bfs p

/-- `path(u, v, head)`, fuelled. -/
def pathF (g : Graph α) : Nat → α → α → List α → Except PathErr (Option (List α))
  | 0, _, _, _ => .error .noFuel
  | fuel+1, u, v, head =>
    if ¬ g.hasNode u ∨ ¬ g.hasNode v then .ok none
    else if v ∈ g.succ u then .ok (some [u, v])
    else if u ∈ head then .ok (some [u])
    else
      match evalMany (fun w => pathF g fuel w v (head ++ [u])) (g.succ u) with
      | .error e => .error e
      | .ok rs => pathLoop u (g.succ u) ((g.succ u).zip rs) none

/-- `path(u, v)`: the top-level call with empty `head`.  The fuel
`|nodes| + 1` is enough for the full recursion (proved below). -/
def path (g : Graph α) (u v : α) : Except PathErr (Option (List α)) :=
  pathF g (g.nodesList.length + 1) u v []

/-- Every adjacency list is duplicate-free. -/
def NodupAdj (g : Graph α) : Prop := ∀ p ∈ g.adj, p.2.Nodup

/-- Nonempty directed walks, for stating reachability. -/
def Reach (g : Graph α) (u v : α) : Prop :=
  Relation.TransGen (fun a b => b ∈ g.succ a) u v

/-- A graph with a duplicated successor entry: `{0: [1, 1], 1: [], 2: []}`. -/
def gDup : Graph Nat := Graph.mk [(0, [1, 1]), (1, []), (2, [])]

/-- A three-node chain `{0: [1], 1: [2], 2: []}`. -/
def gChain : Graph Nat := Graph.mk [(0, [1]), (1, [2]), (2, [])]

/-! ## `coordinator/steps.py`: values, annotations, `Step.execute`

Python runtime values are modelled by `PyVal` with a runtime class tag
`PyTy`; a declared annotation is either a plain class (strict `type(x) is T`
check) or a `Union`/`Optional` carrying its `__args__` list. -/

inductive PyTy where
  | tInt : PyTy
  | tStr : PyTy
  | tBool : PyTy
  | tNone : PyTy
deriving DecidableEq, Repr

inductive PyVal where
  | vInt : Int → PyVal
  | vStr : String → PyVal
  | vBool : Bool → PyVal
  | vNone : PyVal
deriving DecidableEq, Repr

def typeOf : PyVal → PyTy
  | .vInt _ => .tInt
  | .vStr _ => .tStr
  | .vBool _ => .tBool
  | .vNone => .tNone

inductive Ann where
  | simple : PyTy → Ann
  | union : List PyTy → Ann
deriving DecidableEq, Repr

/-- The type check of `Step.execute`: strict equality for a plain
annotation, membership of `__args__` for a union. -/
def annOk (a : Ann) (v : PyVal) : Bool :=
  match a with
  | .simple t => typeOf v == t
  | .union ts => ts.contains (typeOf v)

/-- `optional` in `Step.execute`: has `__args__` containing `NoneType`. -/
def annOptional : Ann → Bool
  | .simple _ => false
  | .union ts => ts.contains .tNone

/-- The error taxonomy.  Every constructor matches a raise site in the
source except `cyclicGraph`, which the spec names but no code raises (the
`verify` cycle check is an empty comment). -/
inductive CoordErr where
  | stepNameConflict : String → CoordErr
  | invalidStepType : CoordErr
  | undefinedDependency : CoordErr
  | cyclicGraph : CoordErr
  | ambiguousParameter : CoordErr
  | keyErrorSource : CoordErr
  | invalidArgument : String → CoordErr
  | typeMismatch : String → CoordErr
  | missingArgument : String → CoordErr
  | executorFailure : CoordErr
deriving DecidableEq, Repr

/-- A `Step`: `consumes` models `func.__annotations__` without `'return'`,
`func` the executor's behaviour on its keyword arguments.  The unused
`description` and `params` fields of the Python model are omitted (neither
`execute` nor the coordinator reads them). -/
structure Step where
  name : String
  consumes : List (String × Ann)
  func : List (String × PyVal) → Except CoordErr PyVal
  depends_on : List (String × Option String)

/-- One `dict.update` assignment: an existing key keeps its position and
gets the new value, a new key is appended. -/
def updOne (m : List (String × PyVal)) (kv : String × PyVal) : List (String × PyVal) :=
  if (lookupA m kv.1).isSome then updateA (fun _ => kv.2) kv.1 m else m ++ [kv]

/-- `kwargs.update({p: v for p, v in _params.items() if p in intypes})`. -/
def mergedKwargs (consumes : List (String × Ann))
    (kwargs params : List (String × PyVal)) : List (String × PyVal) :=
  (params.filter (fun pv => (lookupA consumes pv.1).isSome)).foldl updOne kwargs

/-- The `for k in kwargs` validation loop: unknown keyword, then type
check; checked keys are popped from `intypes`, whose remainder is
returned. -/
def checkArgs (intypes : List (String × Ann)) :
    List (String × PyVal) → Except CoordErr (List (String × Ann))
  | [] => .ok intypes
  | (k, v) :: rest =>
    match lookupA intypes k with
    | none => .error (.invalidArgument k)
    | some a =>
        if annOk a v then checkArgs (removeA k intypes) rest
        else .error (.typeMismatch k)

/-- The `for k in intypes` loop over leftover declared parameters: a
parameter missing from the merged kwargs must be optional. -/
def checkMissing (kwargs : List (String × PyVal)) :
    List (String × Ann) → Except CoordErr Unit
  | [] => .ok ()
  | (k, a) :: rest =>
    if (lookupA kwargs k).isSome then checkMissing kwargs rest
    else if annOptional a then checkMissing kwargs rest
    else .error (.missingArgument k)

/-- `Step.execute(**kwargs)`: the `_params` entry is passed separately,
modelling its `kwargs.pop('_params')`. -/
def Step.executeStep (st : Step) (kwargs params : List (String × PyVal)) :
    Except CoordErr PyVal :=
  let merged := mergedKwargs st.consumes kwargs params
  match checkArgs st.consumes merged with
  | .error e => .error e
  | .ok remaining =>
      match checkMissing merged remaining with
      | .error e => .error e
      | .ok _ => st.func merged

/-! ## `coordinator/coordinator.py`: the `Coordinator` -/

structure Coordinator where
  steps : List (String × Step)
  dag : Graph String
  verified : Bool

/-- `Coordinator.__init__`: empty registry, a DAG holding the `_source`
sentinel, unverified. -/
def Coordinator.init : Coordinator :=
  Coordinator.mk [] (Graph.mk [("_source", [])]) false

/-- `Coordinator.add` (Step form): name-conflict check, then register and
add one DAG edge per dependency key. -/
def Coordinator.add (c : Coordinator) (st : Step) : Except CoordErr Coordinator :=
  if (lookupA c.steps st.name).isSome then .error (.stepNameConflict st.name)
  else .ok (Coordinator.mk (c.steps ++ [(st.name, st)])
    (st.depends_on.foldl (fun g dp => g.addEdge dp.1 st.name) c.dag)
    c.verified)

/-- `Coordinator.remove` (name form): drop the registry entry if present,
remove the DAG node; the `verified` flag is untouched. -/
def Coordinator.remove (c : Coordinator) (name : String) : Coordinator :=
  Coordinator.mk (removeA name c.steps) (c.dag.removeNode name) c.verified

/-- The union of all steps' dependency keys (a Python `set`, modelled as a
deduplicated list). -/
def Coordinator.depKeys (c : Coordinator) : List String :=
  (c.steps.flatMap (fun s => s.2.depends_on.map Prod.fst)).dedup

/-- `Coordinator.intermediates`: build the union, `v.remove('_source')`
(raising `KeyError` when absent), optionally check for undefined
dependencies. -/
def Coordinator.intermediatesC (c : Coordinator) (verify : Bool) :
    Except CoordErr (List String) :=
  let v := c.depKeys
  if "_source" ∈ v then
    let vr := v.filter (fun k => decide (k ≠ "_source"))
    if verify then
      if vr.all (fun k => (lookupA c.steps k).isSome) then .ok vr
      else .error .undefinedDependency
    else .ok vr
  else .error .keyErrorSource

/-- The comprehension of `Coordinator.leaves`, which calls
`intermediates()` once per registered step (and so never calls it when the
registry is empty). -/
def Coordinator.leavesGo (c : Coordinator) :
    List (String × Step) → Except CoordErr (List String)
  | [] => .ok []
  | (s, _) :: rest =>
    match c.intermediatesC false with
    | .error e => .error e
    | .ok inter =>
        match c.leavesGo rest with
        | .error e => .error e
        | .ok ls => .ok (if s ∈ inter then ls else s :: ls)

def Coordinator.leavesC (c : Coordinator) : Except CoordErr (List String) :=
  c.leavesGo c.steps

/-- `Coordinator.verify`: undefined-dependency check via
`intermediates(verify=True)`, *no* cycle check (the source holds only the
comment `# check for cycles`), parameter/step-name collision check, then
mark verified. -/
def Coordinator.verify (c : Coordinator) (params : List (String × PyVal)) :
    Except CoordErr Coordinator :=
  match c.intermediatesC true with
  | .error e => .error e
  | .ok _ =>
      if params ≠ [] ∧ ∃ p ∈ params, (lookupA c.steps p.1).isSome then
        .error .ambiguousParameter
      else .ok (Coordinator.mk c.steps c.dag true)

/-- `Coordinator.launch`: `None` when some non-root dependency has no
recorded result; otherwise build the keyword arguments from the dependency
map (gate-only `None` entries bind nothing, `_source` supplies the run
input) and execute. -/
def Coordinator.launch (c : Coordinator) (st : Step) (source : PyVal)
    (data : List (String × PyVal)) (params : List (String × PyVal)) :
    Option (Except CoordErr PyVal) :=
  if st.depends_on.all (fun dp => decide (dp.1 = "_source") || (lookupA data dp.1).isSome) then
    let kwargs := st.depends_on.foldl
      (fun kw dp =>
        match dp.2 with
        | none => kw
        | some argname =>
            updOne kw (argname,
              if dp.1 = "_source" then source else (lookupA data dp.1).getD .vNone))
      []
    some (st.executeStep kwargs params)
  else none

/-- Outcome of a `run`: a result map, a propagated failure, or divergence
(the Python scheduling loop spins forever when no step can make progress,
since the absent cycle check lets such graphs through `verify`). -/
inductive RunOutcome where
  | ok : List (String × PyVal) → RunOutcome
  | err : CoordErr → RunOutcome
  | hang : RunOutcome
deriving DecidableEq, Repr

/-- One launch pass over the registry in insertion order: start every
not-yet-done step whose dependencies are satisfied; pure executors complete
immediately, and the first failure aborts. -/
def Coordinator.launchPass (c : Coordinator) (source : PyVal)
    (params results : List (String × PyVal)) :
    List (String × Step) → Except CoordErr (List (String × PyVal))
  | [] => .ok []
  | (name, st) :: rest =>
    if (lookupA results name).isSome then c.launchPass source params results rest
    else
      match c.launch st source results params with
      | none => c.launchPass source params results rest
      | some (.error e) => .error e
      | some (.ok v) =>
          match c.launchPass source params results rest with
          | .error e => .error e
          | .ok vs => .ok ((name, v) :: vs)

/-- The scheduling loop, one round per fuel unit: results recorded in a
round enable launches in the next, mirroring the launch-then-poll iteration
with a zero-second cooperative sleep.  A round that finishes nothing while
steps remain spins forever in the source: `hang`. -/
def Coordinator.runRounds (c : Coordinator) (source : PyVal)
    (params : List (String × PyVal)) :
    Nat → List (String × PyVal) → RunOutcome
  | 0, _ => .hang
  | fuel+1, results =>
    if c.steps.all (fun s => (lookupA results s.1).isSome) then
      match c.leavesC with
      | .error e => .err e
      | .ok ls => .ok (ls.map (fun s => (s, (lookupA results s).getD .vNone)))
    else
      match c.launchPass source params results c.steps with
      | .error e => .err e
      | .ok [] => .hang
      | .ok newly => c.runRounds source params fuel (results ++ newly)

/-- `Coordinator.run`: verify first unless already verified, then drive the
scheduling loop; `|steps| + 1` rounds suffice because every non-final round
completes at least one step. -/
def Coordinator.runModel (c : Coordinator) (source : PyVal)
    (params : List (String × PyVal)) : RunOutcome :=
  match (if c.verified then .ok c else c.verify params) with
  | .error e => .err e
  | .ok c2 => c2.runRounds source params (c2.steps.length + 1) []

/-! ## Tarjan's strongly connected components (`Graph._scc` / `Graph.scc`)

The Python recursion mutates `low`/`disc`/`mem` dicts, a shared stack and
the component list; the embedding threads an explicit state.  The recursion
depth is bounded by the number of undiscovered nodes, made explicit with
fuel (the entry point passes `|nodes| + 1`, shown sufficient later). -/

structure TarjanSt (α : Type) where
  t : Nat
  cc : List (List α)
  low : α → Int
  disc : α → Int
  onstk : α → Bool
  stk : List α

/-- Pointwise function update (a dict assignment). -/
def fupd [DecidableEq α] (f : α → β) (x : α) (b : β) : α → β :=
  fun y => if y = x then b else f y

/-- The pop loop closing a component: scan the stack from the top until `u`
(inclusive); input and remainder are in top-first order. -/
def popStack [DecidableEq α] (u : α) : List α → (List α × List α)
  | [] => ([], [])
  | w :: rest =>
    if w = u then ([w], rest)
    else
      let pr := popStack u rest
      (w :: pr.1, pr.2)

/-- The initial Tarjan state: every node undiscovered (`-1`). -/
def tarjanInit (α : Type) : TarjanSt α :=
  TarjanSt.mk 0 [] (fun _ => -1) (fun _ => -1) (fun _ => false) []

/-- `Graph._scc(u, low, disc, mem, st)`. -/
def sccAux [DecidableEq α] (g : Graph α) : Nat → α → TarjanSt α → TarjanSt α
  | 0, _, s => s
  | fuel+1, u, s0 =>
    let s1 := TarjanSt.mk (s0.t + 1) s0.cc (fupd s0.low u (Int.ofNat s0.t))
      (fupd s0.disc u (Int.ofNat s0.t)) (fupd s0.onstk u true) (s0.stk ++ [u])
    let s2 := (g.succ u).foldl
      (fun s v =>
        if s.disc v < 0 then
          let s' := sccAux g fuel v s
          TarjanSt.mk s'.t s'.cc (fupd s'.low u (min (s'.low u) (s'.low v)))
            s'.disc s'.onstk s'.stk
        else if s.onstk v then
          TarjanSt.mk s.t s.cc (fupd s.low u (min (s.low u) (s.disc v)))
            s.disc s.onstk s.stk
        else s)
      s1
    if s2.low u = s2.disc u then
      let pr := popStack u s2.stk.reverse
      TarjanSt.mk s2.t (s2.cc ++ [pr.1]) s2.low s2.disc
        (fun y => if y ∈ pr.1 then false else s2.onstk y) pr.2.reverse
    else s2

/-- `Graph.scc()`: root a DFS at every still-undiscovered node, in dict
order. -/
def Graph.scc [DecidableEq α] (g : Graph α) : List (List α) :=
  (g.nodesList.foldl
    (fun s v => if s.disc v < 0 then sccAux g (g.nodesList.length + 1) v s else s)
    (tarjanInit α)).cc

/-- `Graph.cyclic()`: strictly fewer components than nodes. -/
def Graph.cyclic [DecidableEq α] (g : Graph α) : Bool :=
  g.scc.length < g.nodesList.length

/-- `Graph.acyclic()`. -/
def Graph.acyclic [DecidableEq α] (g : Graph α) : Bool := !g.cyclic

/-! ## Concrete steps and coordinators from the test suite -/

/-- `f_add(i: int, a: Optional[int] = 1) -> int`: annotations. -/
def fAddAnn : List (String × Ann) := [("i", .simple .tInt), ("a", .union [.tInt, .tNone])]

/-- `f_add`'s behaviour, including its Python default `a = 1` and the
`TypeError` `i + None` would raise. -/
def fAddFun : List (String × PyVal) → Except CoordErr PyVal := fun kw =>
  match lookupA kw "i" with
  | some (.vInt i) =>
      match lookupA kw "a" with
      | some (.vInt a) => .ok (.vInt (i + a))
      | none => .ok (.vInt (i + 1))
      | some _ => .error .executorFailure
  | _ => .error .executorFailure

/-- One link of the `t0..t4` chain: executor `f_add`, single dependency
bound to argument `i`. -/
def stepAdd (name dep : String) : Step :=
  Step.mk name fAddAnn fAddFun [(dep, some "i")]

/-- The five-step chain coordinator of `test_sum_ok`. -/
def chainCoordE : Except CoordErr Coordinator :=
  Coordinator.init.add (stepAdd "t0" "_source") >>= fun c =>
  c.add (stepAdd "t1" "t0") >>= fun c =>
  c.add (stepAdd "t2" "t1") >>= fun c =>
  c.add (stepAdd "t3" "t2") >>= fun c =>
  c.add (stepAdd "t4" "t3")

/-- `f_str_to_int(msg: str) -> int`, modelled on the test input values
(`int(msg)` parses decimal literals and raises otherwise). -/
def fStrToIntFun : List (String × PyVal) → Except CoordErr PyVal := fun kw =>
  match lookupA kw "msg" with
  | some (.vStr s) =>
      if s = "0" then .ok (.vInt 0)
      else if s = "1" then .ok (.vInt 1)
      else .error .executorFailure
  | _ => .error .executorFailure

/-- `f_int_to_int(msg: int) -> int`. -/
def fIntToIntFun : List (String × PyVal) → Except CoordErr PyVal := fun kw =>
  match lookupA kw "msg" with
  | some (.vInt n) => .ok (.vInt n)
  | _ => .error .executorFailure

/-- The cyclic coordinator of `test_reject_cyclic`: `t1` and `t2` depend on
each other. -/
def cyclicCoordE : Except CoordErr Coordinator :=
  Coordinator.init.add (Step.mk "t0" [("msg", .simple .tStr)] fStrToIntFun
      [("_source", some "msg")]) >>= fun c =>
  c.add (Step.mk "t1" [("msg", .simple .tInt)] fIntToIntFun
      [("t0", some "msg"), ("t2", some "msg")]) >>= fun c =>
  c.add (Step.mk "t2" [("msg", .simple .tInt)] fIntToIntFun
      [("t1", some "msg")])

/-- A two-step pipeline whose upstream step emits a string into a
downstream step declaring an integer parameter. -/
def typesCoordE : Except CoordErr Coordinator :=
  Coordinator.init.add (Step.mk "ts" [("msg", .simple .tStr)]
      (fun kw =>
        match lookupA kw "msg" with
        | some (.vStr s) => .ok (.vStr s)
        | _ => .error .executorFailure)
      [("_source", some "msg")]) >>= fun c =>
  c.add (Step.mk "ti" [("msg", .simple .tInt)] fIntToIntFun [("ts", some "msg")])

/-- A step with no dependency entries at all (so `_source` appears in no
dependency map). -/
def stLone : Step := Step.mk "s0" [] (fun _ => .ok .vNone) []

/-- A step depending on the never-registered step `zz`. -/
def stBad : Step := Step.mk "t9" [("i", .simple .tInt)] (fun _ => .ok .vNone)
  [("zz", some "i")]

/-- An executor echoing its declared parameter `a`. -/
def stEcho : Step := Step.mk "e" [("a", .simple .tInt)]
  (fun kw => .ok ((lookupA kw "a").getD .vNone)) []

/-- A step declaring one integer parameter `x`. -/
def stX : Step := Step.mk "x" [("x", .simple .tInt)] (fun _ => .ok .vNone) []

/-- Reflexive-transitive reachability. -/
def RS (g : Graph α) (a b : α) : Prop :=
  Relation.ReflTransGen (fun x y => y ∈ g.succ x) a b

/-- Every successor is a node — an invariant of every graph the source can
build (`add` registers both endpoints, `remove` erases a node from every
adjacency list), and without which the Python `_scc` would itself raise a
`KeyError` on its `disc[v]` lookups. -/
def Closed (g : Graph α) : Prop :=
  ∀ p ∈ g.adj, ∀ v ∈ p.2, v ∈ g.nodesList

/-- The full invariant carried between Tarjan steps. -/
structure TInv (g : Graph α) (s : TarjanSt α) : Prop where
  onstk_iff : ∀ x, s.onstk x = true ↔ x ∈ s.stk
  stk_nodup : s.stk.Nodup
  stk_disc : ∀ x ∈ s.stk, 0 ≤ s.disc x
  stk_sorted : s.stk.Pairwise (fun a b => s.disc a < s.disc b)
  disc_lt_t : ∀ x, 0 ≤ s.disc x → s.disc x < Int.ofNat s.t
  disc_node : ∀ x, 0 ≤ s.disc x → x ∈ g.nodesList
  part_iff : ∀ x, 0 ≤ s.disc x ↔ (x ∈ s.stk ∨ x ∈ s.cc.flatMap id)
  cc_nodup : (s.cc.flatMap id).Nodup
  cc_stk_disj : ∀ x ∈ s.cc.flatMap id, x ∉ s.stk
  cc_nonempty : ∀ comp ∈ s.cc, comp ≠ []
  cc_mutual : ∀ comp ∈ s.cc, ∀ x ∈ comp, ∀ y ∈ comp, RS g x y
  cc_maximal : ∀ comp ∈ s.cc, ∀ x ∈ comp, ∀ y, RS g x y → RS g y x → y ∈ comp
  fin_closed : ∀ x, 0 ≤ s.disc x → x ∉ s.stk → ∀ w ∈ g.succ x,
    0 ≤ s.disc w ∧ w ∉ s.stk
  stk_reach : ∀ x ∈ s.stk, ∀ y ∈ s.stk, s.disc x ≤ s.disc y → RS g x y
  undisc_def : ∀ x, s.disc x < 0 →
    s.disc x = -1 ∧ s.low x = -1 ∧ s.onstk x = false
  low_le : ∀ x, 0 ≤ s.disc x → 0 ≤ s.low x ∧ s.low x ≤ s.disc x

/-- The postcondition of one completed `_scc(u)` call entered at state `s`
with gray path `p`. -/
structure SccPost (g : Graph α) (p : List α) (s : TarjanSt α) (u : α)
    (s' : TarjanSt α) : Prop where
  inv : TInv g s'
  disc_pres : ∀ x, 0 ≤ s.disc x → s'.disc x = s.disc x
  low_pres : ∀ x, 0 ≤ s.disc x → s'.low x = s.low x
  cc_ext : ∃ tail, s'.cc = s.cc ++ tail
  stk_ext : ∃ ext, s'.stk = s.stk ++ ext ∧ ∀ x ∈ ext, s.disc x < 0
  t_mono : s.t < s'.t
  u_disc : s'.disc u = Int.ofNat s.t
  new_ge : ∀ x, s.disc x < 0 → 0 ≤ s'.disc x → Int.ofNat s.t ≤ s'.disc x
  new_reach : ∀ z, s.disc z < 0 → 0 ≤ s'.disc z → RS g u z
  l4 : ∀ z, s.disc z < 0 → 0 ≤ s'.disc z → z ∈ s'.stk → s'.low u ≤ s'.low z
  l6 : ∀ z, s.disc z < 0 → 0 ≤ s'.disc z → ∀ w ∈ g.succ z,
    (w ∈ s'.stk → s'.low z ≤ s'.disc w) ∧ 0 ≤ s'.disc w
  gray : ∀ x ∈ s'.stk, ∃ y ∈ p, RS g x y ∧ s'.disc y ≤ s'.disc x
  pop_or_stay : (u ∉ s'.stk ∧ s'.stk = s.stk ∧ s'.low u = s'.disc u) ∨
    (u ∈ s'.stk ∧ s'.low u < s'.disc u ∧
      ∃ y ∈ s.stk, s'.disc y = s'.low u ∧ RS g u y)

/-- Shorthand: the number of undiscovered nodes. -/
def undisc (g : Graph α) (s : TarjanSt α) : Nat :=
  (g.nodesList.filter (fun x => decide (s.disc x < 0))).length

/-- The invariant of the successor loop of `_scc(u)`, relative to the entry
state `sE` (before `u` is pushed); `processed` is the already-examined
prefix of `u`'s successor list. -/
structure LoopSt (g : Graph α) (p : List α) (sE : TarjanSt α) (u : α)
    (processed : List α) (s : TarjanSt α) : Prop where
  inv : TInv g s
  hu_disc : s.disc u = Int.ofNat sE.t
  stk_shape : ∃ ext, s.stk = sE.stk ++ u :: ext ∧
    ∀ x ∈ ext, sE.disc x < 0 ∧ Int.ofNat sE.t < s.disc x
  disc_pres : ∀ x, 0 ≤ sE.disc x → s.disc x = sE.disc x
  low_pres : ∀ x, 0 ≤ sE.disc x → s.low x = sE.low x
  cc_ext : ∃ tail, s.cc = sE.cc ++ tail
  t_mono : sE.t < s.t
  new_ge : ∀ x, sE.disc x < 0 → 0 ≤ s.disc x → Int.ofNat sE.t ≤ s.disc x
  new_reach : ∀ z, sE.disc z < 0 → 0 ≤ s.disc z → RS g u z
  l4 : ∀ z, sE.disc z < 0 → 0 ≤ s.disc z → z ∈ s.stk → s.low u ≤ s.low z
  l6done : ∀ z, sE.disc z < 0 → 0 ≤ s.disc z → z ≠ u → ∀ w ∈ g.succ z,
    (w ∈ s.stk → s.low z ≤ s.disc w) ∧ 0 ≤ s.disc w
  l6part : ∀ w ∈ processed, (w ∈ s.stk → s.low u ≤ s.disc w) ∧ 0 ≤ s.disc w
  lowsound : s.low u = s.disc u ∨
    ∃ y ∈ s.stk, s.disc y = s.low u ∧ RS g u y
  gray : ∀ x ∈ s.stk, ∃ y ∈ p ++ [u], RS g x y ∧ s.disc y ≤ s.disc x
  count : undisc g s < undisc g sE

theorem updateA_cons (f : β → β) (x k : α) (v : β) (rest : List (α × β)) :
    updateA f x ((k, v) :: rest) =
      if x = k then (k, f v) :: rest else (k, v) :: updateA f x rest := rfl

@[simp] theorem lookupA_nil (x : α) : lookupA ([] : List (α × β)) x = none := rfl

@[simp] theorem lookupA_cons (k : α) (v : β) (rest : List (α × β)) (x : α) :
    lookupA ((k, v) :: rest) x = if x = k then some v else lookupA rest x := rfl

/-! ## Basic membership lemmas for graph operations -/

theorem keys_updateA (f : β → β) (x : α) (l : List (α × β)) :
    (updateA f x l).map Prod.fst = l.map Prod.fst := by
  induction l with
  | nil => rfl
  | cons p rest ih =>
      obtain ⟨k, v⟩ := p
      by_cases h : x = k <;> simp [updateA, h, ih]

theorem lookupA_isSome_iff (l : List (α × β)) (x : α) :
    (lookupA l x).isSome ↔ ∃ p ∈ l, x = p.1 := by
  induction l with
  | nil => simp
  | cons p rest ih =>
      obtain ⟨k, v⟩ := p
      by_cases h : x = k <;> simp [lookupA, h, ih]

namespace Graph

theorem mem_nodesList_iff (g : Graph α) (x : α) :
    x ∈ g.nodesList ↔ ∃ p ∈ g.adj, x = p.1 := by
  simp [nodesList, eq_comm]

theorem mem_nodesList_iff_lookup (g : Graph α) (x : α) :
    x ∈ g.nodesList ↔ (lookupA g.adj x).isSome := by
  rw [mem_nodesList_iff, lookupA_isSome_iff]

theorem mem_edgesL_iff (g : Graph α) (e : α × α) :
    e ∈ g.edgesL ↔ ∃ p ∈ g.adj, e.1 = p.1 ∧ e.2 ∈ p.2 := by
  constructor
  · intro h
    simp only [edgesL, List.mem_flatMap, List.mem_map] at h
    obtain ⟨p, hp, v, hv, rfl⟩ := h
    exact ⟨p, hp, rfl, hv⟩
  · rintro ⟨p, hp, h1, h2⟩
    simp only [edgesL, List.mem_flatMap, List.mem_map]
    exact ⟨p, hp, e.2, h2, by rw [← h1]⟩

theorem mem_edgesD_iff [DecidableEq α] (g : Graph α) (e : α × α) :
    e ∈ g.edgesD ↔ e ∈ g.edgesL := List.mem_dedup

@[simp] theorem nodesList_addNode [DecidableEq α] (g : Graph α) (u : α) (x : α) :
    x ∈ (g.addNode u).nodesList ↔ x ∈ g.nodesList ∨ x = u := by
  by_cases h : (lookupA g.adj u).isSome
  · simp only [addNode, if_pos h]
    constructor
    · exact Or.inl
    · rintro (hx | rfl)
      · exact hx
      · exact (mem_nodesList_iff_lookup g x).mpr h
  · simp [addNode, if_neg h, nodesList]

@[simp] theorem edgesL_addNode [DecidableEq α] (g : Graph α) (u : α) (e : α × α) :
    e ∈ (g.addNode u).edgesL ↔ e ∈ g.edgesL := by
  by_cases h : (lookupA g.adj u).isSome
  · simp [addNode, if_pos h]
  · simp [addNode, if_neg h, edgesL]

theorem edgesL_updateA_append [DecidableEq α] (l : List (α × List α)) (u v : α) (e : α × α) :
    (e ∈ (Graph.mk (updateA (fun vs => vs ++ [v]) u l)).edgesL) ↔
      e ∈ (Graph.mk l).edgesL ∨ ((lookupA l u).isSome ∧ e = (u, v)) := by
  induction l with
  | nil => simp [updateA, edgesL]
  | cons p rest ih =>
      obtain ⟨k, vs⟩ := p
      simp only [edgesL] at ih
      by_cases h : u = k
      · subst h
        have e1 : updateA (fun vs => vs ++ [v]) u ((u, vs) :: rest) =
            (u, vs ++ [v]) :: rest := by
          rw [updateA_cons, if_pos rfl]
        have e2 : lookupA ((u, vs) :: rest) u = some vs := by
          rw [lookupA_cons, if_pos rfl]
        rw [e1, e2]
        simp only [edgesL, List.flatMap_cons, List.mem_append,
          Option.isSome_some, true_and, List.map_append, List.map_cons, List.map_nil,
          List.mem_singleton]
        tauto
      · have e1 : updateA (fun vs => vs ++ [v]) u ((k, vs) :: rest) =
            (k, vs) :: updateA (fun vs => vs ++ [v]) u rest := by
          rw [updateA_cons, if_neg h]
        have e2 : lookupA ((k, vs) :: rest) u = lookupA rest u := by
          rw [lookupA_cons, if_neg h]
        rw [e1, e2]
        simp only [edgesL, List.flatMap_cons, List.mem_append]
        constructor
        · rintro (hx | hx)
          · exact Or.inl (Or.inl hx)
          · rcases ih.mp hx with hx | hx
            · exact Or.inl (Or.inr hx)
            · exact Or.inr hx
        · rintro ((hx | hx) | hx)
          · exact Or.inl hx
          · exact Or.inr (ih.mpr (Or.inl hx))
          · exact Or.inr (ih.mpr (Or.inr hx))

theorem lookupA_addNode_isSome [DecidableEq α] (g : Graph α) (u x : α) :
    (lookupA (g.addNode u).adj x).isSome ↔ (lookupA g.adj x).isSome ∨ x = u := by
  rw [← mem_nodesList_iff_lookup, ← mem_nodesList_iff_lookup, nodesList_addNode]

@[simp] theorem nodesList_addEdge [DecidableEq α] (g : Graph α) (u v : α) (x : α) :
    x ∈ (g.addEdge u v).nodesList ↔ x ∈ g.nodesList ∨ x = u ∨ x = v := by
  have h1 : (g.addEdge u v).nodesList = ((g.addNode u).addNode v).nodesList := by
    show (Graph.mk (updateA (fun vs => vs ++ [v]) u ((g.addNode u).addNode v).adj)).nodesList = _
    unfold nodesList
    exact keys_updateA _ _ _
  rw [h1, nodesList_addNode, nodesList_addNode, or_assoc]

@[simp] theorem edgesL_addEdge [DecidableEq α] (g : Graph α) (u v : α) (e : α × α) :
    e ∈ (g.addEdge u v).edgesL ↔ e ∈ g.edgesL ∨ e = (u, v) := by
  have hu : (lookupA ((g.addNode u).addNode v).adj u).isSome := by
    rw [lookupA_addNode_isSome, lookupA_addNode_isSome]
    tauto
  have h2 : e ∈ (g.addEdge u v).edgesL ↔
      e ∈ ((g.addNode u).addNode v).edgesL ∨
        ((lookupA ((g.addNode u).addNode v).adj u).isSome ∧ e = (u, v)) :=
    edgesL_updateA_append _ u v e
  rw [h2]
  simp only [hu, true_and, edgesL_addNode]

theorem nodes_foldl_addEdge [DecidableEq α] (es : List (α × α)) (g : Graph α) (x : α) :
    x ∈ (es.foldl (fun h e => h.addEdge e.2 e.1) g).nodesList ↔
      x ∈ g.nodesList ∨ ∃ e ∈ es, x = e.1 ∨ x = e.2 := by
  induction es generalizing g with
  | nil => simp
  | cons e rest ih =>
      simp only [List.foldl_cons, ih, nodesList_addEdge, List.mem_cons]
      constructor
      · rintro ((hx | hx | hx) | ⟨e', he', hx⟩)
        · exact Or.inl hx
        · exact Or.inr ⟨e, Or.inl rfl, Or.inr hx⟩
        · exact Or.inr ⟨e, Or.inl rfl, Or.inl hx⟩
        · exact Or.inr ⟨e', Or.inr he', hx⟩
      · rintro (hx | ⟨e', he' | he', hx⟩)
        · exact Or.inl (Or.inl hx)
        · subst he'
          rcases hx with hx | hx
          · exact Or.inl (Or.inr (Or.inr hx))
          · exact Or.inl (Or.inr (Or.inl hx))
        · exact Or.inr ⟨e', he', hx⟩

theorem edges_foldl_addEdge [DecidableEq α] (es : List (α × α)) (g : Graph α) (e : α × α) :
    e ∈ (es.foldl (fun h e' => h.addEdge e'.2 e'.1) g).edgesL ↔
      e ∈ g.edgesL ∨ ∃ e' ∈ es, e = (e'.2, e'.1) := by
  induction es generalizing g with
  | nil => simp
  | cons e' rest ih =>
      simp only [List.foldl_cons, ih, edgesL_addEdge, List.mem_cons]
      constructor
      · rintro ((hx | hx) | ⟨f, hf, hx⟩)
        · exact Or.inl hx
        · exact Or.inr ⟨e', Or.inl rfl, hx⟩
        · exact Or.inr ⟨f, Or.inr hf, hx⟩
      · rintro (hx | ⟨f, hf | hf, hx⟩)
        · exact Or.inl (Or.inl hx)
        · subst hf
          exact Or.inl (Or.inr hx)
        · exact Or.inr ⟨f, hf, hx⟩

theorem mem_nodes_reverse [DecidableEq α] (g : Graph α) (x : α) :
    x ∈ g.reverse.nodesList ↔ ∃ e ∈ g.edgesL, x = e.1 ∨ x = e.2 := by
  unfold reverse
  rw [nodes_foldl_addEdge]
  simp only [nodesList, List.map_nil, List.not_mem_nil, false_or]
  constructor
  · rintro ⟨e, he, hx⟩
    exact ⟨e, (mem_edgesD_iff g e).mp he, hx⟩
  · rintro ⟨e, he, hx⟩
    exact ⟨e, (mem_edgesD_iff g e).mpr he, hx⟩

theorem mem_edges_reverse [DecidableEq α] (g : Graph α) (u v : α) :
    (v, u) ∈ g.reverse.edgesL ↔ (u, v) ∈ g.edgesL := by
  unfold reverse
  rw [edges_foldl_addEdge]
  simp only [edgesL, List.flatMap_nil, List.not_mem_nil, false_or]
  constructor
  · rintro ⟨e, he, hx⟩
    obtain ⟨a, b⟩ := e
    obtain ⟨rfl, rfl⟩ := Prod.mk.injEq .. ▸ hx
    simp only [Prod.mk.injEq] at hx
    obtain ⟨rfl, rfl⟩ := hx
    exact (mem_edgesD_iff g (u, v)).mp he
  · intro he
    exact ⟨(u, v), (mem_edgesD_iff g (u, v)).mpr he, rfl⟩

end Graph

/-- C7: `intermediates()` returns exactly the union of the set of nodes with
at least one outgoing edge and the set of direct successors of those nodes,
and this differs, for some graphs, from the set of nodes that are neither
roots nor leaves. -/
theorem C7_intermediates_literal :
    (∀ (α : Type) (g : Graph α) (x : α),
        x ∈ g.intermediates ↔ intermediatesSpec g x) ∧
    (∃ g : Graph Nat, ¬ ∀ x : Nat,
        x ∈ g.intermediates ↔ (x ∈ g.nodesList ∧ x ∉ g.roots ∧ x ∉ g.leaves)) := by
  constructor
  · intro α g x
    simp only [Graph.intermediates, intermediatesSpec, List.mem_flatMap,
      List.mem_filter, List.mem_cons, Bool.not_eq_eq_eq_not, Bool.not_false,
      List.isEmpty_iff, Bool.not_true]
    constructor
    · rintro ⟨p, ⟨hp, hne⟩, hx | hx⟩
      · exact Or.inl ⟨p, hp, by simpa using hne, hx⟩
      · exact Or.inr ⟨p, hp, by simpa using hne, hx⟩
    · rintro (⟨p, hp, hne, hx⟩ | ⟨p, hp, hne, hx⟩)
      · exact ⟨p, ⟨hp, by simpa using hne⟩, Or.inl hx⟩
      · exact ⟨p, ⟨hp, by simpa using hne⟩, Or.inr hx⟩
  · refine ⟨Graph.mk [(0, [1]), (1, [])], fun h => ?_⟩
    have h0 := (h 0).mp (by decide)
    exact absurd h0.2.1 (by decide)

/-- C10: a node belongs to `reverse(G)` iff it is an endpoint of at least one
edge of `G`; the edges of `reverse(G)` are exactly `G`'s edges flipped; and
`reverse(reverse(G))` can equal `G` (as node set plus edge set) only when
every node of `G` is an endpoint of some edge. -/
theorem C10_reverse_nodes :
    (∀ (g : Graph Nat) (x : Nat),
        x ∈ g.reverse.nodesList ↔ ∃ e ∈ g.edgesL, x = e.1 ∨ x = e.2) ∧
    (∀ (g : Graph Nat) (u v : Nat),
        (v, u) ∈ g.reverse.edgesL ↔ (u, v) ∈ g.edgesL) ∧
    (∀ g : Graph Nat, GEquiv g.reverse.reverse g →
        ∀ x ∈ g.nodesList, ∃ e ∈ g.edgesL, x = e.1 ∨ x = e.2) := by
  refine ⟨fun g x => Graph.mem_nodes_reverse g x,
          fun g u v => Graph.mem_edges_reverse g u v, ?_⟩
  intro g hequiv x hx
  have h1 : x ∈ g.reverse.reverse.nodesList := (hequiv.1 x).mpr hx
  have h2 := (Graph.mem_nodes_reverse g.reverse x).mp h1
  obtain ⟨e, he, hend⟩ := h2
  obtain ⟨a, b⟩ := e
  have h3 : (b, a) ∈ g.edgesL := (Graph.mem_edges_reverse g b a).mp he
  exact ⟨(b, a), h3, hend.symm⟩

/-- Witness for C10 at a concrete graph: `{5: [7], 7: []}` reversed twice
is observationally itself, so every node is an edge endpoint. -/
theorem C10_reverse_nodes_witness :
    ∃ e ∈ (Graph.mk [(5, [7]), (7, [])] : Graph Nat).edgesL, 5 = e.1 ∨ 5 = e.2 := by
  have hrr : (Graph.mk [(5, [7]), (7, [])] : Graph Nat).reverse.reverse =
      Graph.mk [(5, [7]), (7, [])] := by rfl
  exact C10_reverse_nodes.2.2 (Graph.mk [(5, [7]), (7, [])])
    ⟨fun x => by rw [hrr], fun e => by rw [hrr]⟩ 5 (by decide)

/-! ### Helper lemmas for `path` -/

theorem evalMany_ok_length (f : γ → Except ε β) (l : List γ) (rs : List β)
    (h : evalMany f l = .ok rs) : rs.length = l.length := by
  induction l generalizing rs with
  | nil =>
      simp only [evalMany] at h
      cases h
      rfl
  | cons w ws ih =>
      simp only [evalMany] at h
      cases hf : f w with
      | error e => rw [hf] at h; exact absurd h (by simp)
      | ok r =>
          rw [hf] at h
          cases he : evalMany f ws with
          | error e => rw [he] at h; exact absurd h (by simp)
          | ok rs' =>
              rw [he] at h
              cases h
              simp [ih rs' he]

theorem lookupA_zip_evalMany [DecidableEq γ] (f : γ → Except ε β) (ws : List γ)
    (rs : List β) (h : evalMany f ws = .ok rs) (w : γ) (r : β)
    (hl : lookupA (ws.zip rs) w = some r) : w ∈ ws ∧ f w = .ok r := by
  induction ws generalizing rs with
  | nil => simp [lookupA] at hl
  | cons w' ws' ih =>
      simp only [evalMany] at h
      cases hf : f w' with
      | error e => rw [hf] at h; exact absurd h (by simp)
      | ok r' =>
          rw [hf] at h
          cases he : evalMany f ws' with
          | error e => rw [he] at h; exact absurd h (by simp)
          | ok rs' =>
              rw [he] at h
              cases h
              simp only [List.zip_cons_cons, lookupA_cons] at hl
              by_cases hww : w = w'
              · subst hww
                rw [if_pos rfl] at hl
                cases hl
                exact ⟨List.mem_cons_self .., hf⟩
              · rw [if_neg hww] at hl
                obtain ⟨hmem, hfw⟩ := ih rs' he hl
                exact ⟨List.mem_cons_of_mem _ hmem, hfw⟩

theorem lookupA_zip_isSome [DecidableEq γ] (ws : List γ) (rs : List β)
    (hlen : rs.length = ws.length) (w : γ) (hw : w ∈ ws) :
    (lookupA (ws.zip rs) w).isSome := by
  induction ws generalizing rs with
  | nil => cases hw
  | cons w' ws' ih =>
      cases rs with
      | nil => simp at hlen
      | cons r' rs' =>
          simp only [List.zip_cons_cons, lookupA_cons]
          by_cases hww : w = w'
          · rw [if_pos hww]; rfl
          · rw [if_neg hww]
            rcases List.mem_cons.mp hw with h | h
            · exact absurd h hww
            · exact ih rs' (by simpa using hlen) h

theorem lookupA_removeA_self (x : α) (l : List (α × β)) :
    lookupA (removeA x l) x = none := by
  induction l with
  | nil => rfl
  | cons p rest ih =>
      obtain ⟨k, v⟩ := p
      by_cases h : x = k
      · subst h
        simpa [removeA] using ih
      · simp [removeA, h, lookupA, ih]

theorem lookupA_removeA_ne (x y : α) (l : List (α × β)) (h : y ≠ x) :
    lookupA (removeA x l) y = lookupA l y := by
  induction l with
  | nil => rfl
  | cons p rest ih =>
      obtain ⟨k, v⟩ := p
      by_cases hk : x = k
      · subst hk
        simp [removeA, lookupA, ih, if_neg h]
      · simp only [removeA, if_neg hk, lookupA_cons]
        by_cases hy : y = k
        · rw [if_pos hy, if_pos hy]
        · rw [if_neg hy, if_neg hy, ih]

theorem lookupA_removeA_some (x y : α) (l : List (α × β)) (b : β)
    (h : lookupA (removeA x l) y = some b) : lookupA l y = some b := by
  by_cases hxy : y = x
  · subst hxy
    rw [lookupA_removeA_self] at h
    cases h
  · rwa [lookupA_removeA_ne x y l hxy] at h

theorem pathLoop_ok (u : α) (ws : List α) (bfs : List (α × Option (List α)))
    (p : Option (List α)) (l : List α)
    (h : pathLoop u ws bfs p = .ok (some l)) :
    p = some l ∨ ∃ w ∈ ws, ∃ rw, lookupA bfs w = some (some rw) ∧
      2 ≤ rw.length ∧ l = u :: rw := by
  induction ws generalizing bfs p with
  | nil =>
      simp only [pathLoop] at h
      cases h
      exact Or.inl rfl
  | cons w ws' ih =>
      cases hw : lookupA bfs w with
      | none =>
          simp only [pathLoop, hw] at h
          cases h
      | some r =>
          simp only [pathLoop, hw] at h
          by_cases h1 : r = none ∨ (r.getD []).length < 2
          · rw [if_pos h1] at h
            rcases ih _ _ h with hp | ⟨w', hw', rw, hlk, hlen, hl⟩
            · exact Or.inl hp
            · exact Or.inr ⟨w', List.mem_cons_of_mem _ hw', rw,
                lookupA_removeA_some w w' bfs _ hlk, hlen, hl⟩
          · rw [if_neg h1] at h
            push_neg at h1
            obtain ⟨hne, hlen2⟩ := h1
            have hr : r = some (r.getD []) := by
              cases r with
              | none => exact absurd rfl hne
              | some rw => rfl
            by_cases h2 : (r.getD []).length = 2
            · rw [if_pos h2] at h
              cases h
              exact Or.inr ⟨w, List.mem_cons_self .., r.getD [],
                by rw [hw, ← hr], h2.ge, rfl⟩
            · rw [if_neg h2] at h
              by_cases h3 : p = none ∨ (r.getD []).length < (p.getD []).length
              · rw [if_pos h3] at h
                rcases ih _ _ h with hp | ⟨w', hw', rw, hlk, hlen, hl⟩
                · cases hp
                  exact Or.inr ⟨w, List.mem_cons_self .., r.getD [],
                    by rw [hw, ← hr], hlen2, rfl⟩
                · exact Or.inr ⟨w', List.mem_cons_of_mem _ hw', rw, hlk, hlen, hl⟩
              · rw [if_neg h3] at h
                rcases ih _ _ h with hp | ⟨w', hw', rw, hlk, hlen, hl⟩
                · exact Or.inl hp
                · exact Or.inr ⟨w', List.mem_cons_of_mem _ hw', rw, hlk, hlen, hl⟩

theorem pathLoop_total (u : α) (ws : List α) (hnd : ws.Nodup)
    (bfs : List (α × Option (List α))) (p : Option (List α))
    (hcov : ∀ w ∈ ws, (lookupA bfs w).isSome) :
    ∃ r, pathLoop u ws bfs p = .ok r := by
  induction ws generalizing bfs p with
  | nil => exact ⟨p, rfl⟩
  | cons w ws' ih =>
      have hw := hcov w (List.mem_cons_self ..)
      cases hlk : lookupA bfs w with
      | none => rw [hlk] at hw; cases hw
      | some r =>
          have hnd' := (List.nodup_cons.mp hnd).2
          have hwmem := (List.nodup_cons.mp hnd).1
          simp only [pathLoop, hlk]
          by_cases h1 : r = none ∨ (r.getD []).length < 2
          · rw [if_pos h1]
            refine ih hnd' _ p (fun w' hw' => ?_)
            have hne : w' ≠ w := fun hh => hwmem (hh ▸ hw')
            rw [lookupA_removeA_ne w w' bfs hne]
            exact hcov w' (List.mem_cons_of_mem _ hw')
          · rw [if_neg h1]
            by_cases h2 : (r.getD []).length = 2
            · rw [if_pos h2]
              exact ⟨_, rfl⟩
            · rw [if_neg h2]
              by_cases h3 : p = none ∨ (r.getD []).length < (p.getD []).length
              · rw [if_pos h3]
                exact ih hnd' _ _ (fun w' hw' => hcov w' (List.mem_cons_of_mem _ hw'))
              · rw [if_neg h3]
                exact ih hnd' _ _ (fun w' hw' => hcov w' (List.mem_cons_of_mem _ hw'))

theorem lookupA_mem (l : List (α × β)) (x : α) (b : β)
    (h : lookupA l x = some b) : (x, b) ∈ l := by
  induction l with
  | nil => cases h
  | cons p rest ih =>
      obtain ⟨k, v⟩ := p
      rw [lookupA_cons] at h
      by_cases hk : x = k
      · rw [if_pos hk] at h
        cases h
        subst hk
        exact List.mem_cons_self ..
      · rw [if_neg hk] at h
        exact List.mem_cons_of_mem _ (ih h)

theorem succ_nodup (g : Graph α) (hna : NodupAdj g) (u : α) : (g.succ u).Nodup := by
  unfold Graph.succ
  cases hlk : lookupA g.adj u with
  | none => simp
  | some vs =>
      simp only [Option.getD_some]
      exact hna (u, vs) (lookupA_mem _ _ _ hlk)

theorem evalMany_total (f : γ → Except ε β) (ws : List γ)
    (h : ∀ w ∈ ws, ∃ r, f w = .ok r) :
    ∃ rs, evalMany f ws = .ok rs ∧ rs.length = ws.length := by
  induction ws with
  | nil => exact ⟨[], rfl, rfl⟩
  | cons w ws' ih =>
      obtain ⟨r, hr⟩ := h w (List.mem_cons_self ..)
      obtain ⟨rs', hrs', hlen⟩ := ih (fun w' hw' => h w' (List.mem_cons_of_mem _ hw'))
      refine ⟨r :: rs', ?_, by simp [hlen]⟩
      simp only [evalMany, hr, hrs']

theorem pathF_sound (g : Graph α) :
    ∀ (fuel : Nat) (u v : α) (head l : List α),
      pathF g fuel u v head = .ok (some l) → 2 ≤ l.length →
      l.head? = some u ∧ l.getLast? = some v ∧ l.Chain' (fun a b => b ∈ g.succ a) := by
  intro fuel
  induction fuel with
  | zero => intro u v head l h _; cases h
  | succ f ih =>
      intro u v head l h hlen
      simp only [pathF] at h
      by_cases h1 : ¬ g.hasNode u ∨ ¬ g.hasNode v
      · rw [if_pos h1] at h
        exact absurd h (by simp)
      · rw [if_neg h1] at h
        by_cases h2 : v ∈ g.succ u
        · rw [if_pos h2] at h
          have hl : [u, v] = l := by simpa using h
          subst hl
          refine ⟨rfl, by simp, ?_⟩
          rw [List.chain'_cons]
          exact ⟨h2, List.chain'_singleton v⟩
        · rw [if_neg h2] at h
          by_cases h3 : u ∈ head
          · rw [if_pos h3] at h
            have hl : [u] = l := by simpa using h
            subst hl
            simp at hlen
          · rw [if_neg h3] at h
            cases hev : evalMany (fun w => pathF g f w v (head ++ [u])) (g.succ u) with
            | error e =>
                simp only [hev] at h
                cases h
            | ok rs =>
                simp only [hev] at h
                rcases pathLoop_ok u (g.succ u) _ none l h with hp | ⟨w, hwmem, rw_, hlk, hlen2, rfl⟩
                · cases hp
                · obtain ⟨hwm, hfw⟩ := lookupA_zip_evalMany _ _ _ hev w (some rw_) hlk
                  obtain ⟨hh, hgl, hch⟩ := ih w v (head ++ [u]) rw_ hfw hlen2
                  obtain ⟨w', rw', rfl⟩ : ∃ w' rw', rw_ = w' :: rw' := by
                    cases rw_ with
                    | nil => cases hh
                    | cons a b => exact ⟨a, b, rfl⟩
                  have hww : w' = w := by simpa using hh
                  subst hww
                  refine ⟨rfl, by simpa using hgl, ?_⟩
                  rw [List.chain'_cons]
                  exact ⟨hwm, hch⟩

theorem pathF_top_len (g : Graph α) (fuel : Nat) (u v : α) (l : List α)
    (h : pathF g fuel u v [] = .ok (some l)) : 2 ≤ l.length := by
  cases fuel with
  | zero => cases h
  | succ f =>
      simp only [pathF] at h
      by_cases h1 : ¬ g.hasNode u ∨ ¬ g.hasNode v
      · rw [if_pos h1] at h
        exact absurd h (by simp)
      · rw [if_neg h1] at h
        by_cases h2 : v ∈ g.succ u
        · rw [if_pos h2] at h
          have hl : [u, v] = l := by simpa using h
          subst hl
          simp
        · rw [if_neg h2, if_neg (List.not_mem_nil u)] at h
          cases hev : evalMany (fun w => pathF g f w v ([] ++ [u])) (g.succ u) with
          | error e =>
              simp only [hev] at h
              cases h
          | ok rs =>
              simp only [hev] at h
              rcases pathLoop_ok u (g.succ u) _ none l h with hp | ⟨w, _, rw_, _, hlen2, rfl⟩
              · cases hp
              · simp only [List.length_cons]
                omega

theorem chain_reach (g : Graph α) :
    ∀ (l : List α) (u v : α), l.head? = some u → l.getLast? = some v →
      l.Chain' (fun a b => b ∈ g.succ a) → 2 ≤ l.length → Reach g u v := by
  intro l
  induction l with
  | nil => intro u v h; cases h
  | cons a rest ih =>
      intro u v hh hgl hch hlen
      have hau : a = u := by simpa using hh
      subst hau
      cases rest with
      | nil => simp at hlen
      | cons b rest' =>
          rw [List.chain'_cons] at hch
          cases rest' with
          | nil =>
              have hbv : b = v := by simpa using hgl
              subst hbv
              exact Relation.TransGen.single hch.1
          | cons c rest2 =>
              have hgl' : (b :: c :: rest2).getLast? = some v := by
                simpa using hgl
              exact Relation.TransGen.head hch.1
                (ih b v (by simp) hgl' hch.2 (by simp))

theorem length_filter_ne_of_nodup (l : List α) (hl : l.Nodup) (u : α) (hu : u ∈ l) :
    (l.filter (fun x => decide (x ≠ u))).length + 1 = l.length := by
  induction l with
  | nil => cases hu
  | cons a l' ih =>
      rw [List.nodup_cons] at hl
      by_cases ha : a = u
      · subst ha
        have : ∀ x ∈ l', decide (x ≠ a) = true := by
          intro x hx
          simp only [decide_eq_true_iff]
          intro hxx
          exact hl.1 (hxx ▸ hx)
        rw [List.filter_cons_of_neg (by simp)]
        rw [List.filter_eq_self.mpr this]
        simp
      · rcases List.mem_cons.mp hu with h | h
        · exact absurd h.symm ha
        · rw [List.filter_cons_of_pos (by simpa using ha)]
          simp only [List.length_cons]
          rw [← ih hl.2 h]

theorem pathF_total (g : Graph α) (hwf : g.WF) (hna : NodupAdj g) :
    ∀ (fuel : Nat) (head : List α) (u v : α), head.Nodup →
      (g.nodesList.filter (fun x => decide (x ∉ head))).length < fuel →
      ∃ r, pathF g fuel u v head = .ok r := by
  intro fuel
  induction fuel with
  | zero =>
      intro head u v _ hlt
      exact absurd hlt (Nat.not_lt_zero _)
  | succ f ih =>
      intro head u v hnd hlt
      by_cases h1 : ¬ g.hasNode u ∨ ¬ g.hasNode v
      · exact ⟨none, by simp only [pathF, if_pos h1]⟩
      · by_cases h2 : v ∈ g.succ u
        · exact ⟨some [u, v], by simp only [pathF, if_neg h1, if_pos h2]⟩
        · by_cases h3 : u ∈ head
          · exact ⟨some [u], by simp only [pathF, if_neg h1, if_neg h2, if_pos h3]⟩
          · push_neg at h1
            have hu : u ∈ g.nodesList := (g.mem_nodesList_iff_lookup u).mpr (by
              have := h1.1
              unfold Graph.hasNode at this
              simpa using this)
            have hnd' : (head ++ [u]).Nodup := by
              refine List.Nodup.append hnd (List.nodup_singleton u) ?_
              intro a ha hb
              rw [List.mem_singleton] at hb
              exact h3 (hb ▸ ha)
            have hlt' : (g.nodesList.filter (fun x => decide (x ∉ head ++ [u]))).length < f := by
              have hpt : ∀ x ∈ g.nodesList,
                  (decide (x ∉ head ++ [u]) : Bool) =
                    ((fun y => decide (y ≠ u)) x && (fun y => decide (y ∉ head)) x) := by
                intro x _
                by_cases hx1 : x ∈ head <;> by_cases hx2 : x = u <;>
                  simp [hx1, hx2]
              rw [List.filter_congr hpt, ← List.filter_filter]
              have hun : u ∈ g.nodesList.filter (fun y => decide (y ∉ head)) := by
                rw [List.mem_filter]
                exact ⟨hu, by simpa using h3⟩
              have hfn : (g.nodesList.filter (fun y => decide (y ∉ head))).Nodup :=
                List.Nodup.filter _ hwf
              have hkey := length_filter_ne_of_nodup _ hfn u hun
              omega
            obtain ⟨rs, hrs, hlen⟩ :=
              evalMany_total (fun w => pathF g f w v (head ++ [u])) (g.succ u)
                (fun w _ => ih (head ++ [u]) w v hnd' hlt')
            obtain ⟨r, hr⟩ := pathLoop_total u (g.succ u) (succ_nodup g hna u)
              ((g.succ u).zip rs) none
              (fun w hw => lookupA_zip_isSome (g.succ u) rs hlen w hw)
            refine ⟨r, ?_⟩
            simp only [pathF, if_neg (not_or.mpr ⟨not_not.mpr h1.1, not_not.mpr h1.2⟩),
              if_neg h2, if_neg h3, hrs]
            exact hr

/-- C8 (amended): for nodes `u`, `v` of the graph, a direct edge returns
`[u, v]`; any returned sequence of length at least two is a genuine directed
path from `u` to `v`; re-meeting a node on the current search path (with no
direct edge) yields the one-element placeholder; and, provided every
adjacency list is duplicate-free, unreachability yields the no-path value
`None` (a duplicated successor can instead make `path` raise `KeyError`). -/
theorem C8_path_behaviour :
    (∀ (α : Type) [DecidableEq α], ∀ (g : Graph α) (u v : α),
        g.hasNode u → g.hasNode v → v ∈ g.succ u →
        path g u v = .ok (some [u, v])) ∧
    (∀ (α : Type) [DecidableEq α], ∀ (g : Graph α) (u v : α) (l : List α),
        path g u v = .ok (some l) → 2 ≤ l.length →
        l.head? = some u ∧ l.getLast? = some v ∧
          l.Chain' (fun a b => b ∈ g.succ a)) ∧
    (∀ (α : Type) [DecidableEq α], ∀ (g : Graph α) (fuel : Nat) (u v : α) (head : List α),
        g.hasNode u → g.hasNode v → v ∉ g.succ u → u ∈ head →
        pathF g (fuel + 1) u v head = .ok (some [u])) ∧
    (∀ (α : Type) [DecidableEq α], ∀ (g : Graph α) (u v : α),
        g.WF → NodupAdj g → ¬ Reach g u v → path g u v = .ok none) := by
  refine ⟨?_, ?_, ?_, ?_⟩
  · intro α _ g u v hu hv hsucc
    unfold path
    simp only [pathF]
    rw [if_neg (not_or.mpr ⟨not_not.mpr hu, not_not.mpr hv⟩), if_pos hsucc]
  · intro α _ g u v l h hlen
    exact pathF_sound g _ u v [] l h hlen
  · intro α _ g fuel u v head hu hv hns hh
    simp only [pathF]
    rw [if_neg (not_or.mpr ⟨not_not.mpr hu, not_not.mpr hv⟩), if_neg hns, if_pos hh]
  · intro α _ g u v hwf hna hnr
    obtain ⟨r, hr⟩ := pathF_total g hwf hna (g.nodesList.length + 1) [] u v List.nodup_nil
      (by simp)
    cases r with
    | none => exact hr
    | some l =>
        have hlen := pathF_top_len g _ u v l hr
        obtain ⟨hh, hgl, hch⟩ := pathF_sound g _ u v [] l hr hlen
        exact absurd (chain_reach g l u v hh hgl hch hlen) hnr

/-- Counterexample to C8 as stated: in `{0: [1, 1], 1: [], 2: []}` the node
`2` is unreachable from `0`, yet `path(0, 2)` raises `KeyError` (the
duplicated successor `1` is deleted from `bfs` at its first visit and looked
up again at its second) instead of returning the no-path value. -/
theorem C8_path_counterexample :
    path gDup 0 2 = .error .keyError ∧ ¬ Reach gDup 0 2 := by
  constructor
  · rfl
  · intro h
    have key : ∀ b : Nat, Reach gDup 0 b → b = 1 := by
      intro b hb
      induction hb with
      | single h1 =>
          rw [show Graph.succ gDup 0 = [1, 1] from rfl] at h1
          simpa using h1
      | tail hab hbc ih =>
          rw [ih, show Graph.succ gDup 1 = [] from rfl] at hbc
          cases hbc
    exact absurd (key 2 h) (by decide)

/-- Witness for C8 on the chain `{0: [1], 1: [2], 2: []}`: a direct edge, a
length-3 path, a cycle placeholder, and an unreachable pair. -/
theorem C8_path_behaviour_witness :
    path gChain 0 1 = .ok (some [0, 1]) ∧
    ([0, 1, 2] : List Nat).Chain' (fun a b => b ∈ gChain.succ a) ∧
    pathF gChain 1 1 0 [1] = .ok (some [1]) ∧
    path gChain 2 0 = .ok none := by
  have hnr : ¬ Reach gChain 2 0 := by
    intro h
    have key : ∀ b : Nat, Reach gChain 2 b → False := by
      intro b hb
      induction hb with
      | single h1 =>
          rw [show Graph.succ gChain 2 = [] from rfl] at h1
          cases h1
      | tail _ _ ih => exact ih
    exact key 0 h
  refine ⟨C8_path_behaviour.1 Nat gChain 0 1 (by decide) (by decide) (by decide),
    (C8_path_behaviour.2.1 Nat gChain 0 2 [0, 1, 2] (by decide) (by decide)).2.2,
    C8_path_behaviour.2.2.1 Nat gChain 0 1 0 [1] (by decide) (by decide) (by decide)
      (by decide),
    C8_path_behaviour.2.2.2 Nat gChain 2 0
      (show (gChain.adj.map Prod.fst).Nodup by decide) ?_ hnr⟩
  intro p hp
  fin_cases hp <;> decide

/-! ### Lemmas about the `dict.update` merge in `Step.execute` -/

theorem lookupA_updateA_self (f : β → β) (x : α) (l : List (α × β)) :
    lookupA (updateA f x l) x = (lookupA l x).map f := by
  induction l with
  | nil => rfl
  | cons p rest ih =>
      obtain ⟨k, v⟩ := p
      by_cases h : x = k
      · rw [updateA_cons, if_pos h, lookupA_cons, if_pos h, lookupA_cons, if_pos h]
        rfl
      · rw [updateA_cons, if_neg h, lookupA_cons, if_neg h, lookupA_cons, if_neg h, ih]

theorem lookupA_updateA_ne (f : β → β) (x y : α) (l : List (α × β)) (h : y ≠ x) :
    lookupA (updateA f x l) y = lookupA l y := by
  induction l with
  | nil => rfl
  | cons p rest ih =>
      obtain ⟨k, v⟩ := p
      by_cases hk : x = k
      · subst hk
        rw [updateA_cons, if_pos rfl, lookupA_cons, if_neg h, lookupA_cons, if_neg h]
      · rw [updateA_cons, if_neg hk, lookupA_cons, lookupA_cons]
        by_cases hy : y = k
        · rw [if_pos hy, if_pos hy]
        · rw [if_neg hy, if_neg hy, ih]

theorem lookupA_append_right (l m : List (α × β)) (x : α) (h : lookupA l x = none) :
    lookupA (l ++ m) x = lookupA m x := by
  induction l with
  | nil => rfl
  | cons p rest ih =>
      obtain ⟨k, v⟩ := p
      rw [lookupA_cons] at h
      by_cases hk : x = k
      · rw [if_pos hk] at h
        cases h
      · rw [if_neg hk] at h
        rw [List.cons_append, lookupA_cons, if_neg hk]
        exact ih h

theorem lookupA_append_left (l m : List (α × β)) (x : α) (h : (lookupA l x).isSome) :
    lookupA (l ++ m) x = lookupA l x := by
  induction l with
  | nil => simp at h
  | cons p rest ih =>
      obtain ⟨k, v⟩ := p
      rw [List.cons_append, lookupA_cons, lookupA_cons]
      by_cases hk : x = k
      · rw [if_pos hk, if_pos hk]
      · rw [if_neg hk, if_neg hk]
        rw [lookupA_cons, if_neg hk] at h
        exact ih h

theorem lookupA_updOne_self (m : List (String × PyVal)) (k : String) (v : PyVal) :
    lookupA (updOne m (k, v)) k = some v := by
  unfold updOne
  by_cases h : (lookupA m k).isSome
  · rw [if_pos h, lookupA_updateA_self]
    cases hm : lookupA m k with
    | none => rw [hm] at h; cases h
    | some w => rfl
  · rw [if_neg h]
    rw [lookupA_append_right _ _ _ (Option.not_isSome_iff_eq_none.mp h), lookupA_cons,
      if_pos rfl]

theorem lookupA_updOne_ne (m : List (String × PyVal)) (p : String × PyVal) (k : String)
    (h : k ≠ p.1) : lookupA (updOne m p) k = lookupA m k := by
  unfold updOne
  by_cases hm : (lookupA m p.1).isSome
  · rw [if_pos hm]
    exact lookupA_updateA_ne _ _ _ _ h
  · rw [if_neg hm]
    by_cases hk : (lookupA m k).isSome
    · exact lookupA_append_left _ _ _ hk
    · rw [lookupA_append_right _ _ _ (Option.not_isSome_iff_eq_none.mp hk),
        Option.not_isSome_iff_eq_none.mp hk]
      obtain ⟨p1, p2⟩ := p
      rw [lookupA_cons, if_neg h]
      rfl

theorem lookupA_none_of_not_mem_keys (l : List (α × β)) (x : α)
    (h : x ∉ l.map Prod.fst) : lookupA l x = none := by
  cases hl : lookupA l x with
  | none => rfl
  | some b =>
      exact absurd (List.mem_map.mpr ⟨(x, b), lookupA_mem l x b hl, rfl⟩) h

theorem lookupA_foldl_updOne (ps : List (String × PyVal)) :
    ∀ (m : List (String × PyVal)) (k : String), (ps.map Prod.fst).Nodup →
      lookupA (ps.foldl updOne m) k =
        if (lookupA ps k).isSome then lookupA ps k else lookupA m k := by
  induction ps with
  | nil => intro m k _; simp
  | cons p rest ih =>
      intro m k hnd
      rw [List.map_cons, List.nodup_cons] at hnd
      rw [List.foldl_cons, ih (updOne m p) k hnd.2]
      obtain ⟨p1, p2⟩ := p
      by_cases hk : k = p1
      · subst hk
        have hr : lookupA rest k = none :=
          lookupA_none_of_not_mem_keys rest k hnd.1
        rw [hr, lookupA_cons, if_pos rfl]
        simp [lookupA_updOne_self]
      · rw [lookupA_cons, if_neg hk]
        by_cases hrest : (lookupA rest k).isSome
        · rw [if_pos hrest, if_pos hrest]
        · rw [if_neg hrest, if_neg hrest, lookupA_updOne_ne m (p1, p2) k hk]

theorem lookupA_filter_key (l : List (α × β)) (q : α → Bool) (k : α) :
    lookupA (l.filter (fun pv => q pv.1)) k = if q k then lookupA l k else none := by
  induction l with
  | nil => simp
  | cons p rest ih =>
      obtain ⟨p1, p2⟩ := p
      by_cases hq : q p1
      · rw [List.filter_cons_of_pos (by simpa using hq), lookupA_cons, lookupA_cons]
        by_cases hk : k = p1
        · subst hk
          rw [if_pos rfl, if_pos rfl, if_pos hq]
        · rw [if_neg hk, if_neg hk, ih]
      · rw [List.filter_cons_of_neg (by simpa using hq), lookupA_cons, ih]
        by_cases hk : k = p1
        · subst hk
          rw [if_neg (by simpa using hq), if_neg (by simpa using hq)]
        · rw [if_neg hk]

theorem lookupA_filter_consumed (consumes : List (String × Ann))
    (l : List (String × PyVal)) (k : String) :
    lookupA (l.filter (fun pv => (lookupA consumes pv.1).isSome)) k =
      if (lookupA consumes k).isSome then lookupA l k else none := by
  have h := lookupA_filter_key l (fun s => (lookupA consumes s).isSome) k
  simpa using h

theorem mergedKwargs_lookup (consumes : List (String × Ann))
    (kwargs params : List (String × PyVal)) (k : String)
    (hnd : (params.map Prod.fst).Nodup) :
    lookupA (mergedKwargs consumes kwargs params) k =
      if (lookupA consumes k).isSome ∧ (lookupA params k).isSome
      then lookupA params k else lookupA kwargs k := by
  unfold mergedKwargs
  have hfnd : ((params.filter (fun pv => (lookupA consumes pv.1).isSome)).map
      Prod.fst).Nodup := by
    refine List.Nodup.sublist ?_ hnd
    exact List.Sublist.map _ (List.filter_sublist params)
  rw [lookupA_foldl_updOne _ kwargs k hfnd, lookupA_filter_consumed]
  by_cases hc : (lookupA consumes k).isSome
  · by_cases hp : (lookupA params k).isSome
    · rw [if_pos hc, if_pos hp, if_pos ⟨hc, hp⟩]
    · rw [if_pos hc, Option.not_isSome_iff_eq_none.mp hp]
      simp
  · rw [if_neg hc]
    simp [hc]

/-! ### Lemmas about the validation loops of `Step.execute` -/

theorem checkArgs_mismatch :
    ∀ (args : List (String × PyVal)) (intypes : List (String × Ann)),
      (args.map Prod.fst).Nodup →
      (∀ p ∈ args, (lookupA intypes p.1).isSome) →
      (∃ p ∈ args, ∃ a, lookupA intypes p.1 = some a ∧ annOk a p.2 = false) →
      ∃ k, checkArgs intypes args = .error (.typeMismatch k) := by
  intro args
  induction args with
  | nil =>
      intro intypes _ _ hmis
      obtain ⟨p, hp, _⟩ := hmis
      cases hp
  | cons pv rest ih =>
      intro intypes hnd hdecl hmis
      obtain ⟨k, v⟩ := pv
      rw [List.map_cons, List.nodup_cons] at hnd
      have hk := hdecl (k, v) (List.mem_cons_self ..)
      cases hlk : lookupA intypes k with
      | none => rw [hlk] at hk; cases hk
      | some a =>
          simp only [checkArgs, hlk]
          by_cases hok : annOk a v = true
          · rw [if_pos hok]
            refine ih (removeA k intypes) hnd.2 ?_ ?_
            · intro p hp
              have hne : p.1 ≠ k := by
                intro hh
                exact hnd.1 (hh ▸ List.mem_map.mpr ⟨p, hp, rfl⟩)
              rw [lookupA_removeA_ne k p.1 intypes hne]
              exact hdecl p (List.mem_cons_of_mem _ hp)
            · obtain ⟨p, hp, a', ha', hfa⟩ := hmis
              rcases List.mem_cons.mp hp with hh | hh
              · subst hh
                rw [hlk] at ha'
                cases ha'
                exact absurd hok (by simp [hfa])
              · have hne : p.1 ≠ k := by
                  intro hhh
                  exact hnd.1 (hhh ▸ List.mem_map.mpr ⟨p, hh, rfl⟩)
                exact ⟨p, hh, a', by rw [lookupA_removeA_ne k p.1 intypes hne]; exact ha',
                  hfa⟩
          · rw [if_neg hok]
            exact ⟨k, rfl⟩

theorem updOne_keys_nodup (m : List (String × PyVal)) (p : String × PyVal)
    (h : (m.map Prod.fst).Nodup) : ((updOne m p).map Prod.fst).Nodup := by
  unfold updOne
  by_cases hm : (lookupA m p.1).isSome
  · rw [if_pos hm, keys_updateA]
    exact h
  · rw [if_neg hm, List.map_append]
    refine List.Nodup.append h (by simp) ?_
    intro x hx hy
    simp only [List.map_cons, List.map_nil, List.mem_singleton] at hy
    subst hy
    apply hm
    rw [lookupA_isSome_iff]
    obtain ⟨q, hq, hqx⟩ := List.mem_map.mp hx
    exact ⟨q, hq, hqx.symm⟩

theorem foldl_updOne_keys_nodup (ps : List (String × PyVal)) :
    ∀ m : List (String × PyVal), (m.map Prod.fst).Nodup →
      ((ps.foldl updOne m).map Prod.fst).Nodup := by
  induction ps with
  | nil => intro m h; exact h
  | cons p rest ih =>
      intro m h
      rw [List.foldl_cons]
      exact ih (updOne m p) (updOne_keys_nodup m p h)

theorem mergedKwargs_keys_nodup (consumes : List (String × Ann))
    (kwargs params : List (String × PyVal)) (h : (kwargs.map Prod.fst).Nodup) :
    ((mergedKwargs consumes kwargs params).map Prod.fst).Nodup :=
  foldl_updOne_keys_nodup _ kwargs h

theorem executeStep_mismatch (st : Step) (kwargs params : List (String × PyVal))
    (hnd : (kwargs.map Prod.fst).Nodup)
    (hdecl : ∀ p ∈ mergedKwargs st.consumes kwargs params,
        (lookupA st.consumes p.1).isSome)
    (hmis : ∃ p ∈ mergedKwargs st.consumes kwargs params, ∃ a,
        lookupA st.consumes p.1 = some a ∧ annOk a p.2 = false) :
    ∃ k, st.executeStep kwargs params = .error (.typeMismatch k) := by
  obtain ⟨k, hk⟩ := checkArgs_mismatch (mergedKwargs st.consumes kwargs params)
    st.consumes (mergedKwargs_keys_nodup _ _ _ hnd) hdecl hmis
  exact ⟨k, by simp only [Step.executeStep, hk]⟩

/-! ## Claim theorems about `Step.execute` and the `Coordinator` -/

/-- C3: the `t0..t4` chain with executor `f_add`, wired `t0 ← root` and each
later step to its predecessor: `run(0)` returns exactly `{t4: 5}` and
`run(0, {a: 2})` exactly `{t4: 10}`; no intermediate result appears. -/
theorem C3_chain_results :
    (chainCoordE.map (fun c => c.runModel (.vInt 0) [])) =
      .ok (.ok [("t4", .vInt 5)]) ∧
    (chainCoordE.map (fun c => c.runModel (.vInt 0) [("a", .vInt 2)])) =
      .ok (.ok [("t4", .vInt 10)]) :=
  ⟨by decide, by decide⟩

/-- C1 (code bug): on the cyclic coordinator of `test_reject_cyclic` the
dependency graph *is* cyclic, yet `verify` succeeds and marks the
coordinator verified — the `# check for cycles` comment has no code under
it — and `run` diverges instead of failing with `CyclicGraph`. -/
theorem C1_cyclic_not_rejected :
    (cyclicCoordE.map (fun c => c.dag.cyclic)) = .ok true ∧
    ((cyclicCoordE.bind (fun c => c.verify [])).map Coordinator.verified) = .ok true ∧
    (cyclicCoordE.map (fun c => c.runModel (.vStr "0") [])) = .ok .hang ∧
    (cyclicCoordE.map (fun c => c.runModel (.vStr "0") [])) ≠ .ok (.err .cyclicGraph) :=
  ⟨by decide, by decide, by decide, by decide⟩

/-- Counterexample to C2 as stated: with parameter `a` bound explicitly to
`1` and run parameter `a = 2`, the echoing executor receives `2` — the run
parameter overrides the explicitly bound value. -/
theorem C2_params_counterexample :
    stEcho.executeStep [("a", .vInt 1)] [("a", .vInt 2)] ≠ .ok (.vInt 1) ∧
    stEcho.executeStep [("a", .vInt 1)] [("a", .vInt 2)] = .ok (.vInt 2) ∧
    stEcho.executeStep [("a", .vInt 1)] [] = .ok (.vInt 1) :=
  ⟨by decide, by decide, by decide⟩

/-- C2 (amended): `kwargs.update(...)` makes run parameters *override*
explicitly bound arguments: the merged argument for a declared name present
in the run parameters is the run-parameter value, and only otherwise the
bound value (in particular run parameters do fill declared parameters absent
from the bound arguments). -/
theorem C2_params_override :
    (∀ (consumes : List (String × Ann)) (kwargs params : List (String × PyVal))
        (k : String), (params.map Prod.fst).Nodup →
        lookupA (mergedKwargs consumes kwargs params) k =
          if (lookupA consumes k).isSome ∧ (lookupA params k).isSome
          then lookupA params k else lookupA kwargs k) ∧
    stEcho.executeStep [("a", .vInt 1)] [("a", .vInt 2)] = .ok (.vInt 2) :=
  ⟨fun consumes kwargs params k hnd => mergedKwargs_lookup consumes kwargs params k hnd,
   by decide⟩

/-- Witness for C2 at concrete arguments: the declared, doubly-present key
`a` resolves to the run-parameter value. -/
theorem C2_params_override_witness :
    lookupA (mergedKwargs stEcho.consumes [("a", PyVal.vInt 1)] [("a", PyVal.vInt 2)])
      "a" = some (.vInt 2) := by
  have h := C2_params_override.1 stEcho.consumes [("a", .vInt 1)] [("a", .vInt 2)] "a"
    (by decide)
  rw [h]
  decide

/-- Counterexample to C6 as stated: the merged kwargs hold the declared
parameter `x` with a mismatched string value, but also the undeclared key
`bogus` which is checked first, so `execute` fails `InvalidArgument`, not
`TypeMismatch`. -/
theorem C6_mismatch_counterexample :
    stX.executeStep [("bogus", .vNone), ("x", .vStr "s")] [] =
      .error (.invalidArgument "bogus") ∧
    lookupA stX.consumes "x" = some (.simple .tInt) ∧
    annOk (.simple .tInt) (.vStr "s") = false :=
  ⟨by decide, by decide, by decide⟩

/-- C6 (amended): when every present argument's name is declared, a present
argument failing the type check (strict equality, or membership of the
union's alternative set) makes `execute` fail `TypeMismatch` without
invoking the executor; in particular an integer-declaring step fed a string
upstream result fails `TypeMismatch` propagated out of `run`. -/
theorem C6_type_mismatch :
    (∀ (st : Step) (kwargs params : List (String × PyVal)),
        (kwargs.map Prod.fst).Nodup →
        (∀ p ∈ mergedKwargs st.consumes kwargs params,
            (lookupA st.consumes p.1).isSome) →
        (∃ p ∈ mergedKwargs st.consumes kwargs params, ∃ a,
            lookupA st.consumes p.1 = some a ∧ annOk a p.2 = false) →
        ∃ k, st.executeStep kwargs params = .error (.typeMismatch k)) ∧
    (typesCoordE.map (fun c => c.runModel (.vStr "0") [])) =
      .ok (.err (.typeMismatch "msg")) :=
  ⟨executeStep_mismatch, by decide⟩

/-- Witness for C6: the step declaring `x : int`, fed the string `"s"`. -/
theorem C6_type_mismatch_witness :
    ∃ k, stX.executeStep [("x", PyVal.vStr "s")] [] = .error (.typeMismatch k) :=
  C6_type_mismatch.1 stX [("x", .vStr "s")] [] (by decide) (by decide) (by decide)

/-- Counterexample to C4 as stated: after a successful `verify`, both `add`
and `remove` leave the `verified` flag `true`, and a run after the mutation
(here adding a step depending on the unregistered `zz`) skips
re-verification — it diverges waiting on `zz` instead of failing
`UndefinedDependency`. -/
theorem C4_mutation_counterexample :
    (((Coordinator.init.add (stepAdd "t0" "_source")).bind (fun c => c.verify [])).bind
        (fun c => c.add stBad)).map Coordinator.verified = .ok true ∧
    ((Coordinator.init.add (stepAdd "t0" "_source")).bind (fun c => c.verify [])).map
        (fun c => (c.remove "t0").verified) = .ok true ∧
    (((Coordinator.init.add (stepAdd "t0" "_source")).bind (fun c => c.verify [])).bind
        (fun c => c.add stBad)).map (fun c => c.runModel (.vInt 0) []) = .ok .hang :=
  ⟨by decide, by decide, by decide⟩

/-- C4 (amended): a successful `verify` sets the flag and any run on a
verified coordinator skips re-verification; but `add` and `remove` preserve
the flag unchanged, so a run after a registry mutation still skips it. -/
theorem C4_verified_flag :
    (∀ (c c' : Coordinator) (params : List (String × PyVal)),
        c.verify params = .ok c' → c'.verified = true) ∧
    (∀ (c c' : Coordinator) (st : Step),
        c.add st = .ok c' → c'.verified = c.verified) ∧
    (∀ (c : Coordinator) (name : String), (c.remove name).verified = c.verified) ∧
    (∀ (c : Coordinator) (d : PyVal) (params : List (String × PyVal)),
        c.verified = true →
        c.runModel d params = c.runRounds d params (c.steps.length + 1) []) := by
  refine ⟨?_, ?_, ?_, ?_⟩
  · intro c c' params h
    unfold Coordinator.verify at h
    cases hI : c.intermediatesC true with
    | error e => rw [hI] at h; cases h
    | ok v =>
        rw [hI] at h
        by_cases hamb : params ≠ [] ∧ ∃ p ∈ params, (lookupA c.steps p.1).isSome
        · rw [if_pos hamb] at h; cases h
        · rw [if_neg hamb] at h
          cases h
          rfl
  · intro c c' st h
    unfold Coordinator.add at h
    by_cases hc : (lookupA c.steps st.name).isSome
    · rw [if_pos hc] at h; cases h
    · rw [if_neg hc] at h
      cases h
      rfl
  · intro c name
    rfl
  · intro c d params h
    unfold Coordinator.runModel
    rw [h]
    rfl

/-- Witness for C4 at a concrete one-step coordinator. -/
theorem C4_verified_flag_witness :
    (Coordinator.mk [("s0", stLone)] (Graph.mk [("_source", [])]) true).runModel
        .vNone [] =
      (Coordinator.mk [("s0", stLone)] (Graph.mk [("_source", [])]) true).runRounds
        .vNone [] 2 [] ∧
    ((Coordinator.mk [("s0", stLone)] (Graph.mk [("_source", [])]) true).remove
        "s0").verified = true := by
  refine ⟨?_, ?_⟩
  · have h := C4_verified_flag.2.2.2
      (Coordinator.mk [("s0", stLone)] (Graph.mk [("_source", [])]) true) .vNone [] rfl
    simpa using h
  · have h := C4_verified_flag.2.2.1
      (Coordinator.mk [("s0", stLone)] (Graph.mk [("_source", [])]) true) "s0"
    simpa using h

/-- C9 (amended): when no registered step's dependency map mentions
`_source`, `intermediates()` (with or without verification), `verify`, and
a first `run` all raise the unclassified `KeyError` from
`v.remove('_source')`; `leaves()` also does once at least one step is
registered, but on an empty registry its comprehension never calls
`intermediates()` and returns the empty set. -/
theorem C9_missing_source :
    ∀ c : Coordinator, (∀ s ∈ c.steps, "_source" ∉ s.2.depends_on.map Prod.fst) →
      c.intermediatesC false = .error .keyErrorSource ∧
      c.intermediatesC true = .error .keyErrorSource ∧
      (∀ params, c.verify params = .error .keyErrorSource) ∧
      (c.steps ≠ [] → c.leavesC = .error .keyErrorSource) ∧
      (c.steps = [] → c.leavesC = .ok []) ∧
      (c.verified = false → ∀ d params, c.runModel d params = .err .keyErrorSource) := by
  intro c hns
  have hsrc : "_source" ∉ c.depKeys := by
    unfold Coordinator.depKeys
    rw [List.mem_dedup, List.mem_flatMap]
    rintro ⟨s, hs, hmem⟩
    exact hns s hs hmem
  have hIf : c.intermediatesC false = .error .keyErrorSource := by
    unfold Coordinator.intermediatesC
    rw [if_neg hsrc]
  have hIt : c.intermediatesC true = .error .keyErrorSource := by
    unfold Coordinator.intermediatesC
    rw [if_neg hsrc]
  have hV : ∀ params, c.verify params = .error .keyErrorSource := by
    intro params
    unfold Coordinator.verify
    rw [hIt]
  refine ⟨hIf, hIt, hV, ?_, ?_, ?_⟩
  · intro hne
    obtain ⟨p, rest, hsteps⟩ := List.exists_cons_of_ne_nil hne
    unfold Coordinator.leavesC
    rw [hsteps]
    obtain ⟨nm, st⟩ := p
    simp only [Coordinator.leavesGo, hIf]
  · intro hempty
    unfold Coordinator.leavesC
    rw [hempty]
    rfl
  · intro hv d params
    unfold Coordinator.runModel
    rw [hv]
    simp only [Bool.false_eq_true, if_false, hV params]

/-- Counterexample to C9 as stated: the empty coordinator registers no
step, yet `leaves()` returns the empty set instead of raising `KeyError`. -/
theorem C9_missing_source_counterexample :
    Coordinator.init.leavesC = .ok [] ∧ Coordinator.init.steps = [] :=
  ⟨by decide, rfl⟩

/-! ## Correctness of the embedded Tarjan algorithm

`cyclic()` compares the component count with the node count; to relate that
to cycles we prove that `scc` outputs a partition of the nodes into
strongly connected components.  `RS` is reflexive-transitive reachability
along successor edges. -/

theorem Closed.succ_mem {g : Graph α} (h : Closed g) {u v : α} (hv : v ∈ g.succ u) :
    v ∈ g.nodesList := by
  unfold Graph.succ at hv
  cases hlk : lookupA g.adj u with
  | none => rw [hlk] at hv; cases hv
  | some vs =>
      rw [hlk] at hv
      exact h (u, vs) (lookupA_mem _ _ _ hlk) v hv

theorem succ_owner_mem {g : Graph α} {u v : α} (hv : v ∈ g.succ u) :
    u ∈ g.nodesList := by
  unfold Graph.succ at hv
  cases hlk : lookupA g.adj u with
  | none => rw [hlk] at hv; cases hv
  | some vs =>
      rw [Graph.mem_nodesList_iff_lookup, hlk]
      rfl

@[simp] theorem fupd_same [DecidableEq α] (f : α → β) (x : α) (b : β) :
    fupd f x b x = b := by simp [fupd]

theorem fupd_ne [DecidableEq α] (f : α → β) (x y : α) (b : β) (h : y ≠ x) :
    fupd f x b y = f y := by simp [fupd, h]

theorem popStack_split [DecidableEq α] (u : α) (l1 l2 : List α) (hu : u ∉ l1) :
    popStack u (l1 ++ u :: l2) = (l1 ++ [u], l2) := by
  induction l1 with
  | nil => simp [popStack]
  | cons a rest ih =>
      have ha : a ≠ u := fun h => hu (h ▸ List.mem_cons_self ..)
      have hr : u ∉ rest := fun h => hu (List.mem_cons_of_mem _ h)
      simp only [List.cons_append, popStack, if_neg ha]
      rw [show rest.append (u :: l2) = rest ++ u :: l2 from rfl, ih hr]

/-- Nodes reachable from a finished node are finished. -/
theorem fin_closed_rs {g : Graph α} {s : TarjanSt α} (hI : TInv g s) {x y : α}
    (hx : 0 ≤ s.disc x) (hxs : x ∉ s.stk) (hxy : RS g x y) :
    0 ≤ s.disc y ∧ y ∉ s.stk := by
  induction hxy with
  | refl => exact ⟨hx, hxs⟩
  | tail hab hbc ih =>
      exact hI.fin_closed _ ih.1 ih.2 _ hbc

theorem filter_length_mono (l : List γ) (p q : γ → Bool)
    (h : ∀ x ∈ l, q x = true → p x = true) :
    (l.filter q).length ≤ (l.filter p).length := by
  induction l with
  | nil => exact Nat.le_refl 0
  | cons a rest ih =>
      have ih' := ih (fun x hx => h x (List.mem_cons_of_mem _ hx))
      by_cases hq : q a = true
      · rw [List.filter_cons_of_pos hq, List.filter_cons_of_pos (h a (List.mem_cons_self ..) hq)]
        simpa using ih'
      · rw [List.filter_cons_of_neg (by simpa using hq)]
        by_cases hp : p a = true
        · rw [List.filter_cons_of_pos hp]
          exact Nat.le_succ_of_le ih'
        · rw [List.filter_cons_of_neg (by simpa using hp)]
          exact ih'

theorem filter_length_strict (l : List γ) (p q : γ → Bool) (u : γ)
    (h : ∀ x ∈ l, q x = true → p x = true) (hu : u ∈ l) (hpu : p u = true)
    (hqu : q u = false) :
    (l.filter q).length < (l.filter p).length := by
  induction l with
  | nil => cases hu
  | cons a rest ih =>
      have hmono := filter_length_mono rest p q (fun x hx => h x (List.mem_cons_of_mem _ hx))
      by_cases hau : a = u
      · subst hau
        rw [List.filter_cons_of_pos hpu, List.filter_cons_of_neg (by simp [hqu])]
        exact Nat.lt_succ_of_le hmono
      · have hu' : u ∈ rest := by
          rcases List.mem_cons.mp hu with hh | hh
          · exact absurd hh.symm hau
          · exact hh
        have ih' := ih (fun x hx => h x (List.mem_cons_of_mem _ hx)) hu'
        by_cases hq : q a = true
        · rw [List.filter_cons_of_pos hq, List.filter_cons_of_pos (h a (List.mem_cons_self ..) hq)]
          simpa using ih'
        · rw [List.filter_cons_of_neg (by simpa using hq)]
          by_cases hp : p a = true
          · rw [List.filter_cons_of_pos hp]
            exact Nat.lt_succ_of_le (Nat.le_of_lt ih')
          · rw [List.filter_cons_of_neg (by simpa using hp)]
            exact ih'

theorem undisc_mono (g : Graph α) (s s' : TarjanSt α)
    (h : ∀ x, 0 ≤ s.disc x → 0 ≤ s'.disc x) : undisc g s' ≤ undisc g s := by
  refine filter_length_mono _ _ _ (fun x _ hx => ?_)
  simp only [decide_eq_true_iff] at hx ⊢
  by_contra hc
  push_neg at hc
  exact absurd (h x hc) (by omega)

theorem undisc_strict (g : Graph α) (s s' : TarjanSt α) (u : α)
    (h : ∀ x, 0 ≤ s.disc x → 0 ≤ s'.disc x) (hu : u ∈ g.nodesList)
    (hsu : s.disc u < 0) (hsu' : 0 ≤ s'.disc u) : undisc g s' < undisc g s := by
  refine filter_length_strict _ _ _ u (fun x _ hx => ?_) hu (by simpa using hsu)
    (by simpa using hsu')
  simp only [decide_eq_true_iff] at hx ⊢
  by_contra hc
  push_neg at hc
  exact absurd (h x hc) (by omega)

theorem LoopSt.u_mem_stk {g : Graph α} {p : List α} {sE : TarjanSt α} {u : α}
    {processed : List α} {s : TarjanSt α} (h : LoopSt g p sE u processed s) :
    u ∈ s.stk := by
  obtain ⟨ext, hstk, _⟩ := h.stk_shape
  rw [hstk]
  exact List.mem_append.mpr (Or.inr (List.mem_cons_self ..))

theorem LoopSt.u_disc_nonneg {g : Graph α} {p : List α} {sE : TarjanSt α} {u : α}
    {processed : List α} {s : TarjanSt α} (h : LoopSt g p sE u processed s) :
    0 ≤ s.disc u := by
  rw [h.hu_disc]
  exact Int.ofNat_nonneg _

theorem rs_single {g : Graph α} {a b : α} (h : b ∈ g.succ a) : RS g a b :=
  Relation.ReflTransGen.single h

/-- One iteration of the successor loop preserves the loop invariant.  The
`hIH` hypothesis is the induction hypothesis for nested `_scc` calls at the
smaller fuel. -/
theorem tStep_spec (g : Graph α) (hcl : Closed g) (f : Nat) (u : α)
    (p : List α) (sE : TarjanSt α)
    (hIH : ∀ (u' : α) (p' : List α) (s' : TarjanSt α), TInv g s' → undisc g s' < f →
      u' ∈ g.nodesList → s'.disc u' < 0 →
      (∀ x ∈ s'.stk, ∃ y ∈ p', RS g x y ∧ s'.disc y ≤ s'.disc x) →
      (∀ y ∈ p', RS g y u') → (∀ y ∈ p', y ∈ s'.stk) →
      SccPost g p' s' u' (sccAux g f u' s'))
    (hpu : ∀ y ∈ p, RS g y u) (hps : ∀ y ∈ p, y ∈ sE.stk)
    (hsEu : sE.disc u < 0)
    (hcnt : undisc g sE ≤ f)
    (proc : List α) (s : TarjanSt α) (v : α) (hv : v ∈ g.succ u)
    (hL : LoopSt g p sE u proc s) :
    LoopSt g p sE u (proc ++ [v])
      (if s.disc v < 0 then
        let s' := sccAux g f v s
        TarjanSt.mk s'.t s'.cc (fupd s'.low u (min (s'.low u) (s'.low v)))
          s'.disc s'.onstk s'.stk
      else if s.onstk v then
        TarjanSt.mk s.t s.cc (fupd s.low u (min (s.low u) (s.disc v)))
          s.disc s.onstk s.stk
      else s) := by
  have hI := hL.inv
  have hune : ∀ x, 0 ≤ sE.disc x → x ≠ u := by
    intro x hx hxe
    rw [hxe] at hx
    omega
  by_cases hdv : s.disc v < 0
  · rw [if_pos hdv]
    have hvnode : v ∈ g.nodesList := hcl.succ_mem hv
    have hcnt' : undisc g s < f := lt_of_lt_of_le hL.count hcnt
    have hgraysU : ∀ y ∈ p ++ [u], RS g y v := by
      intro y hy
      rcases List.mem_append.mp hy with hy | hy
      · exact (hpu y hy).trans (rs_single hv)
      · rw [List.mem_singleton] at hy
        subst hy
        exact rs_single hv
    obtain ⟨ext, hstk, hextp⟩ := hL.stk_shape
    have hgraysS : ∀ y ∈ p ++ [u], y ∈ s.stk := by
      intro y hy
      rcases List.mem_append.mp hy with hy | hy
      · rw [hstk]
        exact List.mem_append.mpr (Or.inl (hps y hy))
      · rw [List.mem_singleton] at hy
        subst hy
        exact hL.u_mem_stk
    have post := hIH v (p ++ [u]) s hL.inv hcnt' hvnode hdv hL.gray hgraysU hgraysS
    show LoopSt g p sE u (proc ++ [v])
      (TarjanSt.mk (sccAux g f v s).t (sccAux g f v s).cc
        (fupd (sccAux g f v s).low u
          (min ((sccAux g f v s).low u) ((sccAux g f v s).low v)))
        (sccAux g f v s).disc (sccAux g f v s).onstk (sccAux g f v s).stk)
    set s2 := sccAux g f v s with hs2def
    have hudisc_s : 0 ≤ s.disc u := hL.u_disc_nonneg
    have hdiscu2 : s2.disc u = s.disc u := post.disc_pres u hudisc_s
    have hlowu2 : s2.low u = s.low u := post.low_pres u hudisc_s
    have hvd2 : s2.disc v = Int.ofNat s.t := post.u_disc
    have hvd2n : 0 ≤ s2.disc v := by
      rw [hvd2]
      exact Int.ofNat_nonneg _
    have hlowv2 := post.inv.low_le v hvd2n
    obtain ⟨ext2, hstk2, hext2new⟩ := post.stk_ext
    have hmonoSE : ∀ x, s.disc x < 0 → sE.disc x < 0 := by
      intro x hx
      by_contra hc
      push_neg at hc
      rw [hL.disc_pres x hc] at hx
      omega
    have hdiscmono : ∀ x, 0 ≤ s.disc x → 0 ≤ s2.disc x := by
      intro x hx
      rw [post.disc_pres x hx]
      exact hx
    have hext2stk : ∀ x ∈ ext2, x ∈ s2.stk := by
      intro x hx
      rw [hstk2]
      exact List.mem_append.mpr (Or.inr hx)
    have hsstk2 : ∀ x ∈ s.stk, x ∈ s2.stk := by
      intro x hx
      rw [hstk2]
      exact List.mem_append.mpr (Or.inl hx)
    have hlu0 := hI.low_le u hudisc_s
    have hminl : min (s2.low u) (s2.low v) ≤ s.low u := by
      rw [← hlowu2]
      exact min_le_left _ _
    have htE : Int.ofNat sE.t < Int.ofNat s.t := Int.ofNat_lt.mpr hL.t_mono
    refine ⟨?_, ?_, ?_, ?_, ?_, ?_, ?_, ?_, ?_, ?_, ?_, ?_, ?_, ?_, ?_⟩
    · -- TInv
      refine ⟨post.inv.onstk_iff, post.inv.stk_nodup, post.inv.stk_disc,
        post.inv.stk_sorted, post.inv.disc_lt_t, post.inv.disc_node,
        post.inv.part_iff, post.inv.cc_nodup, post.inv.cc_stk_disj,
        post.inv.cc_nonempty, post.inv.cc_mutual, post.inv.cc_maximal,
        post.inv.fin_closed, post.inv.stk_reach, ?_, ?_⟩
      · intro x hx
        change s2.disc x < 0 at hx
        have hxne : x ≠ u := by
          intro hxe
          rw [hxe, hdiscu2] at hx
          omega
        obtain ⟨h1, h2, h3⟩ := post.inv.undisc_def x hx
        refine ⟨h1, ?_, h3⟩
        show fupd s2.low u (min (s2.low u) (s2.low v)) x = -1
        rw [fupd_ne _ _ _ _ hxne]
        exact h2
      · intro x hx
        change 0 ≤ s2.disc x at hx
        by_cases hxu : x = u
        · subst hxu
          constructor
          · show 0 ≤ fupd s2.low x (min (s2.low x) (s2.low v)) x
            rw [fupd_same]
            exact le_min (by rw [hlowu2]; exact hlu0.1) hlowv2.1
          · show fupd s2.low x (min (s2.low x) (s2.low v)) x ≤ s2.disc x
            rw [fupd_same, hdiscu2]
            exact le_trans hminl hlu0.2
        · show 0 ≤ fupd s2.low u (min (s2.low u) (s2.low v)) x ∧
            fupd s2.low u (min (s2.low u) (s2.low v)) x ≤ s2.disc x
          rw [fupd_ne _ _ _ _ hxu]
          exact post.inv.low_le x hx
    · -- hu_disc
      show s2.disc u = Int.ofNat sE.t
      rw [hdiscu2]
      exact hL.hu_disc
    · -- stk_shape
      refine ⟨ext ++ ext2, ?_, ?_⟩
      · show s2.stk = sE.stk ++ u :: (ext ++ ext2)
        rw [hstk2, hstk]
        simp
      · intro x hx
        rcases List.mem_append.mp hx with hx | hx
        · obtain ⟨h1, h2⟩ := hextp x hx
          have h0 : (0:Int) ≤ Int.ofNat sE.t := Int.ofNat_nonneg _
          refine ⟨h1, ?_⟩
          show Int.ofNat sE.t < s2.disc x
          rw [post.disc_pres x (by omega)]
          exact h2
        · have hxnew := hext2new x hx
          refine ⟨hmonoSE x hxnew, ?_⟩
          show Int.ofNat sE.t < s2.disc x
          have hdx : 0 ≤ s2.disc x :=
            post.inv.stk_disc x (hext2stk x hx)
          have := post.new_ge x hxnew hdx
          omega
    · -- disc_pres
      intro x hx
      show s2.disc x = sE.disc x
      rw [post.disc_pres x (by rw [hL.disc_pres x hx]; exact hx)]
      exact hL.disc_pres x hx
    · -- low_pres
      intro x hx
      have hxne := hune x hx
      show fupd s2.low u (min (s2.low u) (s2.low v)) x = sE.low x
      rw [fupd_ne _ _ _ _ hxne,
        post.low_pres x (by rw [hL.disc_pres x hx]; exact hx)]
      exact hL.low_pres x hx
    · -- cc_ext
      obtain ⟨t1, ht1⟩ := hL.cc_ext
      obtain ⟨t2, ht2⟩ := post.cc_ext
      refine ⟨t1 ++ t2, ?_⟩
      show s2.cc = sE.cc ++ (t1 ++ t2)
      rw [ht2, ht1]
      simp
    · -- t_mono
      show sE.t < s2.t
      exact Nat.lt_trans hL.t_mono post.t_mono
    · -- new_ge
      intro x hx1 hx2
      change 0 ≤ s2.disc x at hx2
      show Int.ofNat sE.t ≤ s2.disc x
      by_cases hxs : 0 ≤ s.disc x
      · rw [post.disc_pres x hxs]
        exact hL.new_ge x hx1 hxs
      · push_neg at hxs
        have := post.new_ge x hxs hx2
        omega
    · -- new_reach
      intro z hz1 hz2
      change 0 ≤ s2.disc z at hz2
      by_cases hzs : 0 ≤ s.disc z
      · exact hL.new_reach z hz1 hzs
      · push_neg at hzs
        exact (rs_single hv).trans (post.new_reach z hzs hz2)
    · -- l4
      intro z hz1 hz2 hz3
      change 0 ≤ s2.disc z at hz2
      change z ∈ s2.stk at hz3
      by_cases hzu : z = u
      · subst hzu
        exact le_refl _
      · show fupd s2.low u (min (s2.low u) (s2.low v)) u ≤
          fupd s2.low u (min (s2.low u) (s2.low v)) z
        rw [fupd_same, fupd_ne _ _ _ _ hzu]
        by_cases hzs : 0 ≤ s.disc z
        · have hzstk : z ∈ s.stk := by
            rw [hstk2] at hz3
            rcases List.mem_append.mp hz3 with hh | hh
            · exact hh
            · exact absurd hzs (by have := hext2new z hh; omega)
          rw [post.low_pres z hzs]
          exact le_trans hminl (hL.l4 z hz1 hzs hzstk)
        · push_neg at hzs
          exact le_trans (min_le_right _ _) (post.l4 z hzs hz2 hz3)
    · -- l6done
      intro z hz1 hz2 hz3 w hw
      change 0 ≤ s2.disc z at hz2
      by_cases hzs : 0 ≤ s.disc z
      · have hold := hL.l6done z hz1 hzs hz3 w hw
        constructor
        · intro hws
          change w ∈ s2.stk at hws
          have hwstk : w ∈ s.stk := by
            rw [hstk2] at hws
            rcases List.mem_append.mp hws with hh | hh
            · exact hh
            · exact absurd hold.2 (by have := hext2new w hh; omega)
          show fupd s2.low u (min (s2.low u) (s2.low v)) z ≤ s2.disc w
          rw [fupd_ne _ _ _ _ hz3, post.low_pres z hzs, post.disc_pres w hold.2]
          exact hold.1 hwstk
        · show 0 ≤ s2.disc w
          rw [post.disc_pres w hold.2]
          exact hold.2
      · push_neg at hzs
        have hnew := post.l6 z hzs hz2 w hw
        constructor
        · intro hws
          change w ∈ s2.stk at hws
          show fupd s2.low u (min (s2.low u) (s2.low v)) z ≤ s2.disc w
          rw [fupd_ne _ _ _ _ hz3]
          exact hnew.1 hws
        · exact hnew.2
    · -- l6part
      intro w hw
      rcases List.mem_append.mp hw with hw | hw
      · have hold := hL.l6part w hw
        constructor
        · intro hws
          change w ∈ s2.stk at hws
          have hwstk : w ∈ s.stk := by
            rw [hstk2] at hws
            rcases List.mem_append.mp hws with hh | hh
            · exact hh
            · exact absurd hold.2 (by have := hext2new w hh; omega)
          show fupd s2.low u (min (s2.low u) (s2.low v)) u ≤ s2.disc w
          rw [fupd_same, post.disc_pres w hold.2]
          exact le_trans hminl (hold.1 hwstk)
        · show 0 ≤ s2.disc w
          rw [post.disc_pres w hold.2]
          exact hold.2
      · rw [List.mem_singleton] at hw
        subst hw
        constructor
        · intro _
          show fupd s2.low u (min (s2.low u) (s2.low w)) u ≤ s2.disc w
          rw [fupd_same]
          exact le_trans (min_le_right _ _) hlowv2.2
        · exact hvd2n
    · -- lowsound
      show fupd s2.low u (min (s2.low u) (s2.low v)) u = s2.disc u ∨
        ∃ y ∈ s2.stk, s2.disc y = fupd s2.low u (min (s2.low u) (s2.low v)) u ∧
          RS g u y
      rw [fupd_same]
      rcases post.pop_or_stay with ⟨hvns, hstkeq, hloweq⟩ | ⟨hvs, hlowlt, y, hys, hdy, hrsy⟩
      · have hmin : min (s2.low u) (s2.low v) = s2.low u := by
          apply min_eq_left
          rw [hlowu2, hloweq, hvd2]
          calc s.low u ≤ s.disc u := hlu0.2
          _ = Int.ofNat sE.t := hL.hu_disc
          _ ≤ Int.ofNat s.t := le_of_lt htE
        rw [hmin, hlowu2, hdiscu2]
        rcases hL.lowsound with hls | ⟨y, hy1, hy2, hy3⟩
        · exact Or.inl hls
        · refine Or.inr ⟨y, hsstk2 y hy1, ?_, hy3⟩
          rw [post.disc_pres y (hI.stk_disc y hy1)]
          exact hy2
      · by_cases hm : s2.low u ≤ s2.low v
        · rw [min_eq_left hm, hlowu2, hdiscu2]
          rcases hL.lowsound with hls | ⟨y0, hy1, hy2, hy3⟩
          · exact Or.inl hls
          · refine Or.inr ⟨y0, hsstk2 y0 hy1, ?_, hy3⟩
            rw [post.disc_pres y0 (hI.stk_disc y0 hy1)]
            exact hy2
        · push_neg at hm
          rw [min_eq_right (le_of_lt hm)]
          refine Or.inr ⟨y, hsstk2 y hys, hdy, (rs_single hv).trans hrsy⟩
    · -- gray
      intro x hx
      change x ∈ s2.stk at hx
      obtain ⟨y, hy1, hy2, hy3⟩ := post.gray x hx
      exact ⟨y, hy1, hy2, hy3⟩
    · -- count
      show undisc g s2 < undisc g sE
      exact lt_of_le_of_lt (undisc_mono g s s2 hdiscmono) hL.count
  · rw [if_neg hdv]
    push_neg at hdv
    by_cases hov : s.onstk v = true
    · rw [if_pos hov]
      have hvstk : v ∈ s.stk := (hI.onstk_iff v).mp hov
      have hlu := hI.low_le u (hL.u_disc_nonneg)
      have hlv0 : 0 ≤ s.disc v := hdv
      refine ⟨?_, hL.hu_disc, hL.stk_shape, hL.disc_pres, ?_, hL.cc_ext, hL.t_mono,
        hL.new_ge, hL.new_reach, ?_, ?_, ?_, ?_, hL.gray, hL.count⟩
      · -- TInv after the low[u] := min(low[u], disc[v]) update
        refine ⟨hI.onstk_iff, hI.stk_nodup, hI.stk_disc, hI.stk_sorted, hI.disc_lt_t,
          hI.disc_node, hI.part_iff, hI.cc_nodup, hI.cc_stk_disj, hI.cc_nonempty,
          hI.cc_mutual, hI.cc_maximal, hI.fin_closed, hI.stk_reach, ?_, ?_⟩
        · intro x hx
          change s.disc x < 0 at hx
          have hxne : x ≠ u := by
            intro hxe
            rw [hxe] at hx
            have h0 := hL.u_disc_nonneg
            omega
          obtain ⟨h1, h2, h3⟩ := hI.undisc_def x hx
          refine ⟨h1, ?_, h3⟩
          show fupd s.low u (min (s.low u) (s.disc v)) x = -1
          rw [fupd_ne _ _ _ _ hxne]
          exact h2
        · intro x hx
          by_cases hxu : x = u
          · subst hxu
            refine ⟨?_, ?_⟩
            · show 0 ≤ fupd s.low x (min (s.low x) (s.disc v)) x
              rw [fupd_same]
              exact le_min (hlu.1) hlv0
            · show fupd s.low x (min (s.low x) (s.disc v)) x ≤ s.disc x
              rw [fupd_same]
              exact le_trans (min_le_left _ _) hlu.2
          · show 0 ≤ fupd s.low u (min (s.low u) (s.disc v)) x ∧
              fupd s.low u (min (s.low u) (s.disc v)) x ≤ s.disc x
            rw [fupd_ne _ _ _ _ hxu]
            exact hI.low_le x hx
      · -- low_pres
        intro x hx
        have hxne := hune x hx
        show fupd s.low u (min (s.low u) (s.disc v)) x = sE.low x
        rw [fupd_ne _ _ _ _ hxne]
        exact hL.low_pres x hx
      · -- l4
        intro z hz1 hz2 hz3
        by_cases hzu : z = u
        · subst hzu
          exact le_refl _
        · show fupd s.low u (min (s.low u) (s.disc v)) u ≤
            fupd s.low u (min (s.low u) (s.disc v)) z
          rw [fupd_same, fupd_ne _ _ _ _ hzu]
          exact le_trans (min_le_left _ _) (hL.l4 z hz1 hz2 hz3)
      · -- l6done
        intro z hz1 hz2 hz3 w hw
        have hold := hL.l6done z hz1 hz2 hz3 w hw
        refine ⟨fun hws => ?_, hold.2⟩
        show fupd s.low u (min (s.low u) (s.disc v)) z ≤ s.disc w
        rw [fupd_ne _ _ _ _ hz3]
        exact hold.1 hws
      · -- l6part
        intro w hw
        rcases List.mem_append.mp hw with hw | hw
        · have hold := hL.l6part w hw
          refine ⟨fun hws => ?_, hold.2⟩
          show fupd s.low u (min (s.low u) (s.disc v)) u ≤ s.disc w
          rw [fupd_same]
          exact le_trans (min_le_left _ _) (hold.1 hws)
        · rw [List.mem_singleton] at hw
          subst hw
          refine ⟨fun _ => ?_, hlv0⟩
          show fupd s.low u (min (s.low u) (s.disc w)) u ≤ s.disc w
          rw [fupd_same]
          exact min_le_right _ _
      · -- lowsound
        by_cases hmin : s.low u ≤ s.disc v
        · have heq : min (s.low u) (s.disc v) = s.low u := min_eq_left hmin
          rcases hL.lowsound with hls | ⟨y, hy1, hy2, hy3⟩
          · left
            show fupd s.low u (min (s.low u) (s.disc v)) u = s.disc u
            rw [fupd_same, heq]
            exact hls
          · right
            refine ⟨y, hy1, ?_, hy3⟩
            show s.disc y = fupd s.low u (min (s.low u) (s.disc v)) u
            rw [fupd_same, heq]
            exact hy2
        · right
          push_neg at hmin
          have heq : min (s.low u) (s.disc v) = s.disc v := min_eq_right (le_of_lt hmin)
          refine ⟨v, hvstk, ?_, rs_single hv⟩
          show s.disc v = fupd s.low u (min (s.low u) (s.disc v)) u
          rw [fupd_same, heq]
    · rw [if_neg hov]
      refine ⟨hL.inv, hL.hu_disc, hL.stk_shape, hL.disc_pres, hL.low_pres, hL.cc_ext,
        hL.t_mono, hL.new_ge, hL.new_reach, hL.l4, hL.l6done, ?_, hL.lowsound,
        hL.gray, hL.count⟩
      intro w hw
      rcases List.mem_append.mp hw with hw | hw
      · exact hL.l6part w hw
      · rw [List.mem_singleton] at hw
        subst hw
        refine ⟨fun hws => absurd ((hI.onstk_iff w).mpr hws) (by simpa using hov),
          by omega⟩

theorem sccLoop_spec (g : Graph α) (p : List α) (sE : TarjanSt α) (u : α)
    (F : TarjanSt α → α → TarjanSt α)
    (hF : ∀ (proc : List α) (s : TarjanSt α) (v : α), v ∈ g.succ u →
      LoopSt g p sE u proc s → LoopSt g p sE u (proc ++ [v]) (F s v)) :
    ∀ (vs proc : List α) (s : TarjanSt α), (∀ v ∈ vs, v ∈ g.succ u) →
      LoopSt g p sE u proc s → LoopSt g p sE u (proc ++ vs) (vs.foldl F s) := by
  intro vs
  induction vs with
  | nil =>
      intro proc s _ hL
      simpa using hL
  | cons v vs' ih =>
      intro proc s hvs hL
      rw [List.foldl_cons]
      have h1 := hF proc s v (hvs v (List.mem_cons_self ..)) hL
      have h2 := ih (proc ++ [v]) (F s v)
        (fun w hw => hvs w (List.mem_cons_of_mem _ hw)) h1
      simpa [List.append_assoc] using h2

theorem sccClose_spec (g : Graph α) (p : List α) (s : TarjanSt α) (u : α)
    (s2 : TarjanSt α) (hI : TInv g s)
    (hud : s.disc u < 0)
    (hgray : ∀ x ∈ s.stk, ∃ y ∈ p, RS g x y ∧ s.disc y ≤ s.disc x)
    (hps : ∀ y ∈ p, y ∈ s.stk)
    (hL2 : LoopSt g p s u (g.succ u) s2) :
    SccPost g p s u
      (if s2.low u = s2.disc u then
        TarjanSt.mk s2.t (s2.cc ++ [(popStack u s2.stk.reverse).1]) s2.low s2.disc
          (fun y => if y ∈ (popStack u s2.stk.reverse).1 then false else s2.onstk y)
          (popStack u s2.stk.reverse).2.reverse
      else s2) := by
  obtain ⟨E, hstkE, hEprops⟩ := hL2.stk_shape
  have hu2d : s2.disc u = Int.ofNat s.t := hL2.hu_disc
  have hunstk : u ∉ s.stk := by
    intro hc
    have := hI.stk_disc u hc
    omega
  have hsold : ∀ x ∈ s.stk, s2.disc x = s.disc x ∧ s2.disc x < Int.ofNat s.t := by
    intro x hx
    have hd := hI.stk_disc x hx
    have h1 := hL2.disc_pres x hd
    exact ⟨h1, by rw [h1]; exact hI.disc_lt_t x hd⟩
  have hsmem2 : ∀ x ∈ s.stk, x ∈ s2.stk := by
    intro x hx
    rw [hstkE]
    exact List.mem_append.mpr (Or.inl hx)
  have hxsplit : ∀ x ∈ s2.stk, x ∈ s.stk ∨ (x = u ∨ x ∈ E) := by
    intro x hx
    rw [hstkE] at hx
    rcases List.mem_append.mp hx with hh | hh
    · exact Or.inl hh
    · rcases List.mem_cons.mp hh with hh | hh
      · exact Or.inr (Or.inl hh)
      · exact Or.inr (Or.inr hh)
  have hPstk : ∀ x, (x = u ∨ x ∈ E) → x ∈ s2.stk := by
    intro x hx
    rw [hstkE]
    refine List.mem_append.mpr (Or.inr ?_)
    rcases hx with hh | hh
    · exact hh ▸ List.mem_cons_self ..
    · exact List.mem_cons_of_mem _ hh
  have hPdisc : ∀ x, (x = u ∨ x ∈ E) → Int.ofNat s.t ≤ s2.disc x := by
    intro x hx
    rcases hx with hh | hh
    · rw [hh, hu2d]
    · exact le_of_lt (hEprops x hh).2
  have hPnew : ∀ x, (x = u ∨ x ∈ E) → s.disc x < 0 := by
    intro x hx
    rcases hx with hh | hh
    · exact hh ▸ hud
    · exact (hEprops x hh).1
  have hPd0 : ∀ x, (x = u ∨ x ∈ E) → 0 ≤ s2.disc x := by
    intro x hx
    have h0 : (0:Int) ≤ Int.ofNat s.t := Int.ofNat_nonneg _
    have := hPdisc x hx
    omega
  have hdisjP : ∀ x, (x = u ∨ x ∈ E) → x ∉ s.stk := by
    intro x hx hc
    have h1 := (hsold x hc).2
    have h2 := hPdisc x hx
    omega
  by_cases hpop : s2.low u = s2.disc u
  · rw [if_pos hpop]
    have hnd2 : s2.stk.Nodup := hL2.inv.stk_nodup
    have hndE : u ∉ E ∧ E.Nodup := by
      rw [hstkE] at hnd2
      have h1 := (List.nodup_append.mp hnd2).2.1
      exact ⟨(List.nodup_cons.mp h1).1, (List.nodup_cons.mp h1).2⟩
    have hrev : s2.stk.reverse = E.reverse ++ u :: s.stk.reverse := by
      rw [hstkE]
      simp
    have hpopeq : popStack u s2.stk.reverse = (E.reverse ++ [u], s.stk.reverse) := by
      rw [hrev]
      exact popStack_split u E.reverse s.stk.reverse (by simpa using hndE.1)
    have heq1 : (popStack u s2.stk.reverse).1 = E.reverse ++ [u] := by rw [hpopeq]
    have heq2 : (popStack u s2.stk.reverse).2.reverse = s.stk := by
      rw [hpopeq]
      exact List.reverse_reverse _
    rw [heq1, heq2]
    have hPmem : ∀ x, x ∈ E.reverse ++ [u] ↔ (x = u ∨ x ∈ E) := by
      intro x
      rw [List.mem_append, List.mem_reverse, List.mem_singleton]
      exact or_comm
    have key : ∀ x y, RS g x y → (x = u ∨ x ∈ E) →
        ((y = u ∨ y ∈ E) ∨ (0 ≤ s2.disc y ∧ y ∉ s2.stk)) := by
      intro x y hxy
      induction hxy with
      | refl => exact fun hx => Or.inl hx
      | tail hab hbc ih =>
          rename_i b c
          intro hx
          rcases ih hx with hb | ⟨hbd, hbs⟩
          · have hbnew := hPnew b hb
            have hbstk := hPstk b hb
            have hbd0 := hPd0 b hb
            have hpair : (c ∈ s2.stk → s2.low u ≤ s2.disc c) ∧ 0 ≤ s2.disc c := by
              rcases hb with hbu | hbE
              · subst hbu
                exact ⟨fun hcs => (hL2.l6part c hbc).1 hcs, (hL2.l6part c hbc).2⟩
              · have hbne : b ≠ u := fun hh => hndE.1 (hh ▸ hbE)
                refine ⟨fun hcs => ?_, (hL2.l6done b hbnew hbd0 hbne c hbc).2⟩
                have h1 := (hL2.l6done b hbnew hbd0 hbne c hbc).1 hcs
                have h2 := hL2.l4 b hbnew hbd0 hbstk
                omega
            by_cases hcs : c ∈ s2.stk
            · left
              have h3 := hpair.1 hcs
              rw [hpop] at h3
              rcases hxsplit c hcs with hcold | hcP
              · exfalso
                have h4 := (hsold c hcold).2
                rw [hu2d] at h3
                omega
              · exact hcP
            · exact Or.inr ⟨hpair.2, hcs⟩
          · exact Or.inr (hL2.inv.fin_closed b hbd hbs c hbc)
    have hPreachU : ∀ x, (x = u ∨ x ∈ E) → RS g x u := by
      intro x hx
      obtain ⟨y, hy1, hy2, hy3⟩ := hL2.gray x (hPstk x hx)
      rcases List.mem_append.mp hy1 with hyp | hyu
      · exfalso
        rcases key x y hy2 hx with hyP | ⟨_, hyns⟩
        · exact hdisjP y hyP (hps y hyp)
        · exact hyns (hsmem2 y (hps y hyp))
      · rw [List.mem_singleton] at hyu
        rw [hyu] at hy2
        exact hy2
    have hUreachP : ∀ x, (x = u ∨ x ∈ E) → RS g u x := by
      intro x hx
      refine hL2.inv.stk_reach u hL2.u_mem_stk x (hPstk x hx) ?_
      rw [hu2d]
      exact hPdisc x hx
    have hjm : ∀ x, x ∈ (s2.cc ++ [E.reverse ++ [u]]).flatMap id ↔
        x ∈ s2.cc.flatMap id ∨ x ∈ E.reverse ++ [u] := by
      intro x
      simp
    refine ⟨?_, hL2.disc_pres, hL2.low_pres, ?_,
      ⟨[], (List.append_nil _).symm, by intro x hx; cases hx⟩, hL2.t_mono,
      hu2d, hL2.new_ge, hL2.new_reach, ?_, ?_, ?_, Or.inl ⟨hunstk, rfl, hpop⟩⟩
    · -- TInv of the popped state
      refine ⟨?_, hI.stk_nodup, ?_, ?_, hL2.inv.disc_lt_t, hL2.inv.disc_node,
        ?_, ?_, ?_, ?_, ?_, ?_, ?_, ?_, ?_, hL2.inv.low_le⟩
      · intro y
        show (if y ∈ E.reverse ++ [u] then false else s2.onstk y) = true ↔ y ∈ s.stk
        by_cases hyP : y ∈ E.reverse ++ [u]
        · rw [if_pos hyP]
          simp only [Bool.false_eq_true, false_iff]
          exact hdisjP y ((hPmem y).mp hyP)
        · rw [if_neg hyP, hL2.inv.onstk_iff y]
          constructor
          · intro hy
            rcases hxsplit y hy with hh | hh
            · exact hh
            · exact absurd ((hPmem y).mpr hh) hyP
          · exact hsmem2 y
      · intro x hx
        show 0 ≤ s2.disc x
        rw [(hsold x hx).1]
        exact hI.stk_disc x hx
      · have h1 := hL2.inv.stk_sorted
        rw [hstkE] at h1
        exact (List.pairwise_append.mp h1).1
      · intro x
        have hpi := hL2.inv.part_iff x
        show 0 ≤ s2.disc x ↔ x ∈ s.stk ∨ x ∈ (s2.cc ++ [E.reverse ++ [u]]).flatMap id
        rw [hjm x]
        constructor
        · intro hd
          rcases hpi.mp hd with hstk2m | hjoin2
          · rcases hxsplit x hstk2m with hh | hh
            · exact Or.inl hh
            · exact Or.inr (Or.inr ((hPmem x).mpr hh))
          · exact Or.inr (Or.inl hjoin2)
        · intro hcases
          apply hpi.mpr
          rcases hcases with hh | hh | hh
          · exact Or.inl (hsmem2 x hh)
          · exact Or.inr hh
          · exact Or.inl (hPstk x ((hPmem x).mp hh))
      · show ((s2.cc ++ [E.reverse ++ [u]]).flatMap id).Nodup
        have hje : (s2.cc ++ [E.reverse ++ [u]]).flatMap id =
            s2.cc.flatMap id ++ (E.reverse ++ [u]) := by
          simp
        rw [hje]
        refine List.Nodup.append hL2.inv.cc_nodup ?_ ?_
        · refine List.Nodup.append (List.nodup_reverse.mpr hndE.2) (by simp) ?_
          intro a ha hb
          rw [List.mem_reverse] at ha
          rw [List.mem_singleton] at hb
          exact hndE.1 (hb ▸ ha)
        · intro a ha hb
          exact hL2.inv.cc_stk_disj a ha (hPstk a ((hPmem a).mp hb))
      · intro x hx
        rw [hjm x] at hx
        rcases hx with hh | hh
        · intro hc
          exact hL2.inv.cc_stk_disj x hh (hsmem2 x hc)
        · exact hdisjP x ((hPmem x).mp hh)
      · intro comp hcomp
        rcases List.mem_append.mp hcomp with hh | hh
        · exact hL2.inv.cc_nonempty comp hh
        · rw [List.mem_singleton] at hh
          subst hh
          simp
      · intro comp hcomp x hx y hy
        rcases List.mem_append.mp hcomp with hh | hh
        · exact hL2.inv.cc_mutual comp hh x hx y hy
        · rw [List.mem_singleton] at hh
          subst hh
          exact (hPreachU x ((hPmem x).mp hx)).trans
            (hUreachP y ((hPmem y).mp hy))
      · intro comp hcomp x hx y hxy hyx
        rcases List.mem_append.mp hcomp with hh | hh
        · exact hL2.inv.cc_maximal comp hh x hx y hxy hyx
        · rw [List.mem_singleton] at hh
          subst hh
          rcases key x y hxy ((hPmem x).mp hx) with hyP | ⟨hyd, hyns⟩
          · exact (hPmem y).mpr hyP
          · exfalso
            have hfin := fin_closed_rs hL2.inv hyd hyns hyx
            exact hfin.2 (hPstk x ((hPmem x).mp hx))
      · intro x hxd hxns w hw
        change 0 ≤ s2.disc x at hxd
        by_cases hxP : x = u ∨ x ∈ E
        · rcases key x w (rs_single hw) hxP with hwP | ⟨hwd, hwns⟩
          · exact ⟨hPd0 w hwP, hdisjP w hwP⟩
          · exact ⟨hwd, fun hc => hwns (hsmem2 w hc)⟩
        · have hxns2 : x ∉ s2.stk := by
            intro hc
            rcases hxsplit x hc with hh | hh
            · exact hxns hh
            · exact hxP hh
          have h1 := hL2.inv.fin_closed x hxd hxns2 w hw
          exact ⟨h1.1, fun hc => h1.2 (hsmem2 w hc)⟩
      · intro x hx y hy hle
        exact hL2.inv.stk_reach x (hsmem2 x hx) y (hsmem2 y hy) hle
      · intro x hx
        change s2.disc x < 0 at hx
        obtain ⟨hd, hl, ho⟩ := hL2.inv.undisc_def x hx
        have hxP : x ∉ E.reverse ++ [u] := by
          intro hc
          exact absurd (hPd0 x ((hPmem x).mp hc)) (by omega)
        refine ⟨hd, hl, ?_⟩
        show (if x ∈ E.reverse ++ [u] then false else s2.onstk x) = false
        rw [if_neg hxP]
        exact ho
    · -- cc_ext
      obtain ⟨t2, ht2⟩ := hL2.cc_ext
      refine ⟨t2 ++ [E.reverse ++ [u]], ?_⟩
      show s2.cc ++ [E.reverse ++ [u]] = s.cc ++ (t2 ++ [E.reverse ++ [u]])
      rw [ht2]
      simp
    · -- l4 (vacuous: nothing new remains on the stack)
      intro z hz1 hz2 hz3
      change z ∈ s.stk at hz3
      exact absurd (hI.stk_disc z hz3) (by omega)
    · -- l6
      intro z hz1 hz2 w hw
      change 0 ≤ s2.disc z at hz2
      by_cases hzu : z = u
      · subst hzu
        have h1 := hL2.l6part w hw
        exact ⟨fun hws => h1.1 (hsmem2 w hws), h1.2⟩
      · have h1 := hL2.l6done z hz1 hz2 hzu w hw
        exact ⟨fun hws => h1.1 (hsmem2 w hws), h1.2⟩
    · -- gray
      intro x hx
      change x ∈ s.stk at hx
      obtain ⟨y, hy1, hy2, hy3⟩ := hgray x hx
      refine ⟨y, hy1, hy2, ?_⟩
      show s2.disc y ≤ s2.disc x
      rw [(hsold y (hps y hy1)).1, (hsold x hx).1]
      exact hy3
  · rw [if_neg hpop]
    have hllt : s2.low u < s2.disc u := by
      have := (hL2.inv.low_le u hL2.u_disc_nonneg).2
      omega
    have hsnd : ∃ y ∈ s.stk, s2.disc y = s2.low u ∧ RS g u y := by
      rcases hL2.lowsound with hls | ⟨y, hy1, hy2, hy3⟩
      · exact absurd hls hpop
      · refine ⟨y, ?_, hy2, hy3⟩
        rcases hxsplit y hy1 with hh | hh
        · exact hh
        · exact absurd (hPdisc y hh) (by rw [hy2, ← hu2d] at *; omega)
    refine ⟨hL2.inv, ?_, ?_, hL2.cc_ext, ⟨u :: E, by rw [hstkE], ?_⟩, hL2.t_mono,
      hu2d, hL2.new_ge, hL2.new_reach, hL2.l4, ?_, ?_, Or.inr ⟨hL2.u_mem_stk, hllt, hsnd⟩⟩
    · exact hL2.disc_pres
    · exact hL2.low_pres
    · intro x hx
      rcases List.mem_cons.mp hx with hh | hh
      · exact hh ▸ hud
      · exact (hEprops x hh).1
    · intro z hz1 hz2 w hw
      by_cases hzu : z = u
      · subst hzu
        exact hL2.l6part w hw
      · exact hL2.l6done z hz1 hz2 hzu w hw
    · intro x hx
      obtain ⟨y, hy1, hy2, hy3⟩ := hL2.gray x hx
      rcases List.mem_append.mp hy1 with hyp | hyu
      · exact ⟨y, hyp, hy2, hy3⟩
      · rw [List.mem_singleton] at hyu
        rw [hyu] at hy2 hy3
        obtain ⟨y2, hy21, hy22, hy23⟩ := hsnd
        obtain ⟨y3, hy31, hy32, hy33⟩ := hgray y2 hy21
        refine ⟨y3, hy31, hy2.trans (hy23.trans hy32), ?_⟩
        have ha : s2.disc y3 = s.disc y3 := (hsold y3 (hps y3 hy31)).1
        have hb : s2.disc y2 = s.disc y2 := (hsold y2 hy21).1
        have hc : s2.disc u ≤ s2.disc x := hy3
        rw [ha]
        calc s.disc y3 ≤ s.disc y2 := hy33
        _ = s2.disc y2 := hb.symm
        _ = s2.low u := hy22
        _ ≤ s2.disc u := le_of_lt hllt
        _ ≤ s2.disc x := hc

theorem sccAux_spec (g : Graph α) (hcl : Closed g) :
    ∀ (fuel : Nat) (u : α) (p : List α) (s : TarjanSt α), TInv g s →
      undisc g s < fuel → u ∈ g.nodesList → s.disc u < 0 →
      (∀ x ∈ s.stk, ∃ y ∈ p, RS g x y ∧ s.disc y ≤ s.disc x) →
      (∀ y ∈ p, RS g y u) → (∀ y ∈ p, y ∈ s.stk) →
      SccPost g p s u (sccAux g fuel u s) := by
  intro fuel
  induction fuel with
  | zero =>
      intro u p s _ hcnt
      exact absurd hcnt (Nat.not_lt_zero _)
  | succ f ihf =>
      intro u p s hI hcnt hunode hud hgray hpu hps
      have hcnt' : undisc g s ≤ f := Nat.lt_succ_iff.mp hcnt
      have hustk : u ∉ s.stk := fun hc => absurd (hI.stk_disc u hc) (by omega)
      have hdne : ∀ x, 0 ≤ s.disc x → x ≠ u := by
        intro x hx he
        rw [he] at hx
        omega
      have h0t : (0:Int) ≤ Int.ofNat s.t := Int.ofNat_nonneg _
      set s1 := TarjanSt.mk (s.t + 1) s.cc (fupd s.low u (Int.ofNat s.t))
        (fupd s.disc u (Int.ofNat s.t)) (fupd s.onstk u true) (s.stk ++ [u]) with hs1def
      have hd1 : ∀ x, x ≠ u → s1.disc x = s.disc x := fun x hx => fupd_ne _ _ _ _ hx
      have hl1 : ∀ x, x ≠ u → s1.low x = s.low x := fun x hx => fupd_ne _ _ _ _ hx
      have hd1u : s1.disc u = Int.ofNat s.t := fupd_same _ _ _
      have hI1 : TInv g s1 := by
        refine ⟨?_, ?_, ?_, ?_, ?_, ?_, ?_, hI.cc_nodup, ?_, hI.cc_nonempty,
          hI.cc_mutual, hI.cc_maximal, ?_, ?_, ?_, ?_⟩
        · intro x
          by_cases hx : x = u
          · subst hx
            show fupd s.onstk x true x = true ↔ x ∈ s.stk ++ [x]
            rw [fupd_same]
            simp
          · show fupd s.onstk u true x = true ↔ x ∈ s.stk ++ [u]
            rw [fupd_ne _ _ _ _ hx, List.mem_append, List.mem_singleton,
              hI.onstk_iff x]
            exact ⟨Or.inl, fun h => h.resolve_right hx⟩
        · refine List.Nodup.append hI.stk_nodup (by simp) ?_
          intro a ha hb
          rw [List.mem_singleton] at hb
          exact hustk (hb ▸ ha)
        · intro x hx
          rcases List.mem_append.mp hx with hh | hh
          · have hxu : x ≠ u := fun he => hustk (he ▸ hh)
            show 0 ≤ s1.disc x
            rw [hd1 x hxu]
            exact hI.stk_disc x hh
          · rw [List.mem_singleton] at hh
            subst hh
            show 0 ≤ s1.disc x
            rw [hd1u]
            exact h0t
        · refine List.pairwise_append.mpr ⟨?_, by simp, ?_⟩
          · refine List.Pairwise.imp_of_mem ?_ hI.stk_sorted
            intro a b ha hb hab
            have hau : a ≠ u := fun he => hustk (he ▸ ha)
            have hbu : b ≠ u := fun he => hustk (he ▸ hb)
            show s1.disc a < s1.disc b
            rw [hd1 a hau, hd1 b hbu]
            exact hab
          · intro a ha b hb
            rw [List.mem_singleton] at hb
            have hau : a ≠ u := fun he => hustk (he ▸ ha)
            show s1.disc a < s1.disc b
            rw [hb, hd1 a hau, hd1u]
            exact hI.disc_lt_t a (hI.stk_disc a ha)
        · intro x hx
          show s1.disc x < Int.ofNat (s.t + 1)
          have hstep : Int.ofNat s.t < Int.ofNat (s.t + 1) :=
            Int.ofNat_lt.mpr (Nat.lt_succ_self _)
          by_cases hxu : x = u
          · subst hxu
            rw [hd1u]
            exact hstep
          · rw [hd1 x hxu]
            rw [show s1.disc x = s.disc x from hd1 x hxu] at hx
            exact lt_trans (hI.disc_lt_t x hx) hstep
        · intro x hx
          by_cases hxu : x = u
          · subst hxu
            exact hunode
          · rw [show s1.disc x = s.disc x from hd1 x hxu] at hx
            exact hI.disc_node x hx
        · intro x
          by_cases hxu : x = u
          · subst hxu
            have h1 : (0:Int) ≤ s1.disc x := by rw [hd1u]; exact h0t
            have h2 : x ∈ s.stk ++ [x] := List.mem_append.mpr (Or.inr (by simp))
            exact iff_of_true h1 (Or.inl h2)
          · rw [show s1.disc x = s.disc x from hd1 x hxu]
            rw [hI.part_iff x]
            constructor
            · rintro (hh | hh)
              · exact Or.inl (List.mem_append.mpr (Or.inl hh))
              · exact Or.inr hh
            · rintro (hh | hh)
              · rcases List.mem_append.mp hh with hh2 | hh2
                · exact Or.inl hh2
                · rw [List.mem_singleton] at hh2
                  exact absurd hh2 hxu
              · exact Or.inr hh
        · intro x hx
          have hxd : 0 ≤ s.disc x := (hI.part_iff x).mpr (Or.inr hx)
          have hxu : x ≠ u := hdne x hxd
          intro hc
          rcases List.mem_append.mp hc with hh | hh
          · exact hI.cc_stk_disj x hx hh
          · rw [List.mem_singleton] at hh
            exact hxu hh
        · intro x hx hxs w hw
          have hxu : x ≠ u := fun he =>
            hxs (he ▸ List.mem_append.mpr (Or.inr (by simp)))
          rw [show s1.disc x = s.disc x from hd1 x hxu] at hx
          have hxs' : x ∉ s.stk := fun hc => hxs (List.mem_append.mpr (Or.inl hc))
          obtain ⟨hw1, hw2⟩ := hI.fin_closed x hx hxs' w hw
          have hwu : w ≠ u := hdne w hw1
          constructor
          · show 0 ≤ s1.disc w
            rw [hd1 w hwu]
            exact hw1
          · intro hc
            rcases List.mem_append.mp hc with hh | hh
            · exact hw2 hh
            · rw [List.mem_singleton] at hh
              exact hwu hh
        · intro x hx y hy hle
          rcases List.mem_append.mp hx with hhx | hhx
          · have hxu : x ≠ u := fun he => hustk (he ▸ hhx)
            rcases List.mem_append.mp hy with hhy | hhy
            · have hyu : y ≠ u := fun he => hustk (he ▸ hhy)
              rw [show s1.disc x = s.disc x from hd1 x hxu,
                show s1.disc y = s.disc y from hd1 y hyu] at hle
              exact hI.stk_reach x hhx y hhy hle
            · rw [List.mem_singleton] at hhy
              rw [hhy]
              obtain ⟨z, hz1, hz2, _⟩ := hgray x hhx
              exact hz2.trans (hpu z hz1)
          · rw [List.mem_singleton] at hhx
            rcases List.mem_append.mp hy with hhy | hhy
            · exfalso
              have hyu : y ≠ u := fun he => hustk (he ▸ hhy)
              rw [hhx, show s1.disc y = s.disc y from hd1 y hyu, hd1u] at hle
              have := hI.disc_lt_t y (hI.stk_disc y hhy)
              omega
            · rw [List.mem_singleton] at hhy
              rw [hhx, hhy]
              exact Relation.ReflTransGen.refl
        · intro x hx
          have hxu : x ≠ u := by
            intro he
            rw [he, hd1u] at hx
            omega
          rw [show s1.disc x = s.disc x from hd1 x hxu] at hx
          obtain ⟨ha, hb, hc⟩ := hI.undisc_def x hx
          refine ⟨?_, ?_, ?_⟩
          · rw [hd1 x hxu]
            exact ha
          · rw [hl1 x hxu]
            exact hb
          · show fupd s.onstk u true x = false
            rw [fupd_ne _ _ _ _ hxu]
            exact hc
        · intro x hx
          by_cases hxu : x = u
          · subst hxu
            constructor
            · show 0 ≤ s1.low x
              rw [show s1.low x = Int.ofNat s.t from fupd_same _ _ _]
              exact h0t
            · show s1.low x ≤ s1.disc x
              rw [show s1.low x = Int.ofNat s.t from fupd_same _ _ _, hd1u]
          · rw [show s1.disc x = s.disc x from hd1 x hxu] at hx
            constructor
            · show 0 ≤ s1.low x
              rw [hl1 x hxu]
              exact (hI.low_le x hx).1
            · show s1.low x ≤ s1.disc x
              rw [hl1 x hxu, hd1 x hxu]
              exact (hI.low_le x hx).2
      have hL1 : LoopSt g p s u [] s1 := by
        refine ⟨hI1, hd1u, ⟨[], rfl, by intro x hx; cases hx⟩, ?_, ?_,
          ⟨[], (List.append_nil _).symm⟩, Nat.lt_succ_self _, ?_, ?_, ?_, ?_,
          (by intro w hw; cases hw), Or.inl (by rw [hd1u]; exact fupd_same _ _ _),
          ?_, ?_⟩
        · intro x hx
          exact hd1 x (hdne x hx)
        · intro x hx
          exact hl1 x (hdne x hx)
        · intro x hx1 hx2
          by_cases hxu : x = u
          · subst hxu
            rw [hd1u]
          · exfalso
            rw [show s1.disc x = s.disc x from hd1 x hxu] at hx2
            omega
        · intro z hz1 hz2
          by_cases hzu : z = u
          · subst hzu
            exact Relation.ReflTransGen.refl
          · exfalso
            rw [show s1.disc z = s.disc z from hd1 z hzu] at hz2
            omega
        · intro z hz1 hz2 hz3
          by_cases hzu : z = u
          · subst hzu
            exact le_refl _
          · exfalso
            rw [show s1.disc z = s.disc z from hd1 z hzu] at hz2
            omega
        · intro z hz1 hz2 hz3 w hw
          exfalso
          rw [show s1.disc z = s.disc z from hd1 z hz3] at hz2
          omega
        · intro x hx
          rcases List.mem_append.mp hx with hh | hh
          · obtain ⟨y, hy1, hy2, hy3⟩ := hgray x hh
            have hyu : y ≠ u := hdne y (hI.stk_disc y (hps y hy1))
            have hxu : x ≠ u := fun he => hustk (he ▸ hh)
            refine ⟨y, List.mem_append.mpr (Or.inl hy1), hy2, ?_⟩
            rw [show s1.disc y = s.disc y from hd1 y hyu,
              show s1.disc x = s.disc x from hd1 x hxu]
            exact hy3
          · rw [List.mem_singleton] at hh
            rw [hh]
            exact ⟨u, List.mem_append.mpr (Or.inr (by simp)),
              Relation.ReflTransGen.refl, le_refl _⟩
        · refine undisc_strict g s s1 u ?_ hunode hud ?_
          · intro x hx
            by_cases hxu : x = u
            · subst hxu
              rw [hd1u]
              exact h0t
            · rw [show s1.disc x = s.disc x from hd1 x hxu]
              exact hx
          · rw [hd1u]
            exact h0t
      have hL2 := sccLoop_spec g p s u
        (fun st v =>
          if st.disc v < 0 then
            let s' := sccAux g f v st
            TarjanSt.mk s'.t s'.cc (fupd s'.low u (min (s'.low u) (s'.low v)))
              s'.disc s'.onstk s'.stk
          else if st.onstk v then
            TarjanSt.mk st.t st.cc (fupd st.low u (min (st.low u) (st.disc v)))
              st.disc st.onstk st.stk
          else st)
        (fun proc st v hv hL =>
          tStep_spec g hcl f u p s ihf hpu hps hud hcnt' proc st v hv hL)
        (g.succ u) [] s1 (fun v hv => hv) hL1
      rw [List.nil_append] at hL2
      have hfin := sccClose_spec g p s u _ hI hud hgray hps hL2
      exact hfin

theorem tarjanInit_inv (g : Graph α) : TInv g (tarjanInit α) := by
  refine ⟨?_, List.nodup_nil, ?_, List.Pairwise.nil, ?_, ?_, ?_, ?_, ?_, ?_, ?_,
    ?_, ?_, ?_, ?_, ?_⟩
  · intro x
    simp [tarjanInit]
  · intro x hx
    cases hx
  · intro x hx
    exact absurd hx (by simp [tarjanInit])
  · intro x hx
    exact absurd hx (by simp [tarjanInit])
  · intro x
    simp [tarjanInit]
  · simp [tarjanInit]
  · intro x hx
    simp [tarjanInit] at hx
  · intro comp hc
    cases hc
  · intro comp hc
    cases hc
  · intro comp hc
    cases hc
  · intro x hx
    exact absurd hx (by simp [tarjanInit])
  · intro x hx
    cases hx
  · intro x _
    refine ⟨rfl, rfl, rfl⟩
  · intro x hx
    exact absurd hx (by simp [tarjanInit])

theorem sccFold_spec (g : Graph α) (hcl : Closed g) :
    ∀ (l : List α), (∀ v ∈ l, v ∈ g.nodesList) →
    ∀ s : TarjanSt α, TInv g s → s.stk = [] →
      TInv g (l.foldl
        (fun s v => if s.disc v < 0 then sccAux g (g.nodesList.length + 1) v s else s)
        s) ∧
      (l.foldl
        (fun s v => if s.disc v < 0 then sccAux g (g.nodesList.length + 1) v s else s)
        s).stk = [] ∧
      (∀ x, 0 ≤ s.disc x → 0 ≤ (l.foldl
        (fun s v => if s.disc v < 0 then sccAux g (g.nodesList.length + 1) v s else s)
        s).disc x) ∧
      (∀ v ∈ l, 0 ≤ (l.foldl
        (fun s v => if s.disc v < 0 then sccAux g (g.nodesList.length + 1) v s else s)
        s).disc v) := by
  intro l
  induction l with
  | nil =>
      intro _ s hI hstk
      exact ⟨hI, hstk, fun x hx => hx, fun v hv => absurd hv (List.not_mem_nil v)⟩
  | cons v rest ih =>
      intro hl s hI hstk
      have hvnode : v ∈ g.nodesList := hl v (List.mem_cons_self ..)
      have hrest : ∀ w ∈ rest, w ∈ g.nodesList :=
        fun w hw => hl w (List.mem_cons_of_mem _ hw)
      rw [List.foldl_cons]
      by_cases hv : s.disc v < 0
      · rw [if_pos hv]
        have hcnt : undisc g s < g.nodesList.length + 1 :=
          Nat.lt_succ_of_le (List.length_filter_le _ _)
        have post := sccAux_spec g hcl (g.nodesList.length + 1) v [] s hI hcnt
          hvnode hv
          (by intro x hx; rw [hstk] at hx; cases hx)
          (by intro y hy; cases hy)
          (by intro y hy; cases hy)
        set s1 := sccAux g (g.nodesList.length + 1) v s with hs1
        have hstk1 : s1.stk = [] := by
          rcases post.pop_or_stay with ⟨_, heq, _⟩ | ⟨_, _, y, hy, _⟩
          · rw [heq, hstk]
          · rw [hstk] at hy
            cases hy
        have hmono1 : ∀ x, 0 ≤ s.disc x → 0 ≤ s1.disc x := by
          intro x hx
          rw [post.disc_pres x hx]
          exact hx
        have hv1 : 0 ≤ s1.disc v := by
          rw [post.u_disc]
          exact Int.ofNat_nonneg _
        obtain ⟨hIf, hstkf, hmonof, hallf⟩ := ih hrest s1 post.inv hstk1
        refine ⟨hIf, hstkf, fun x hx => hmonof x (hmono1 x hx), ?_⟩
        intro w hw
        rcases List.mem_cons.mp hw with hh | hh
        · rw [hh]
          exact hmonof v hv1
        · exact hallf w hh
      · rw [if_neg hv]
        have hv0 : 0 ≤ s.disc v := by omega
        obtain ⟨hIf, hstkf, hmonof, hallf⟩ := ih hrest s hI hstk
        refine ⟨hIf, hstkf, hmonof, ?_⟩
        intro w hw
        rcases List.mem_cons.mp hw with hh | hh
        · rw [hh]
          exact hmonof v hv0
        · exact hallf w hh

/-- The final Tarjan state behind `Graph.scc`: invariant holds, the stack is
empty, and every node is discovered. -/
theorem scc_final_spec (g : Graph α) (hcl : Closed g) :
    ∃ s : TarjanSt α, g.scc = s.cc ∧ TInv g s ∧ s.stk = [] ∧
      ∀ v ∈ g.nodesList, 0 ≤ s.disc v := by
  obtain ⟨hI, hstk, _, hall⟩ := sccFold_spec g hcl g.nodesList (fun v hv => hv)
    (tarjanInit α) (tarjanInit_inv g) rfl
  exact ⟨_, rfl, hI, hstk, hall⟩

theorem flatMap_id_length (cc : List (List γ)) :
    (cc.flatMap id).length = (cc.map List.length).sum := by
  induction cc with
  | nil => rfl
  | cons c rest ih =>
      rw [List.flatMap_cons, List.length_append, List.map_cons, List.sum_cons, ih]
      rfl

theorem len_le_sum (cc : List (List γ)) (hne : ∀ c ∈ cc, c ≠ []) :
    cc.length ≤ (cc.map List.length).sum := by
  induction cc with
  | nil => exact Nat.le_refl 0
  | cons d tl ih =>
      have hd1 : 1 ≤ d.length :=
        List.length_pos.mpr (hne d (List.mem_cons_self d tl))
      have := ih (fun e he => hne e (List.mem_cons_of_mem _ he))
      rw [List.length_cons, List.map_cons, List.sum_cons]
      omega

theorem count_lt_sum (cc : List (List γ)) (hne : ∀ c ∈ cc, c ≠ []) :
    cc.length < (cc.map List.length).sum ↔ ∃ c ∈ cc, 2 ≤ c.length := by
  induction cc with
  | nil => simp
  | cons c rest ih =>
      have hc1 : 1 ≤ c.length :=
        List.length_pos.mpr (hne c (List.mem_cons_self ..))
      have ih' := ih (fun d hd => hne d (List.mem_cons_of_mem _ hd))
      have hr1 : rest.length ≤ (rest.map List.length).sum :=
        len_le_sum rest (fun d hd => hne d (List.mem_cons_of_mem _ hd))
      rw [List.length_cons, List.map_cons, List.sum_cons]
      constructor
      · intro h
        by_cases h2 : 2 ≤ c.length
        · exact ⟨c, List.mem_cons_self .., h2⟩
        · have : rest.length < (rest.map List.length).sum := by omega
          obtain ⟨d, hd, hd2⟩ := ih'.mp this
          exact ⟨d, List.mem_cons_of_mem _ hd, hd2⟩
      · rintro ⟨d, hd, hd2⟩
        rcases List.mem_cons.mp hd with hh | hh
        · rw [hh] at hd2
          omega
        · have : rest.length < (rest.map List.length).sum :=
            ih'.mpr ⟨d, hh, hd2⟩
          omega

theorem nodup_of_mem_flatMap {cc : List (List γ)} {c : List γ}
    (hc : c ∈ cc) (h : (cc.flatMap id).Nodup) : c.Nodup := by
  induction cc with
  | nil => cases hc
  | cons d rest ih =>
      rw [List.flatMap_cons] at h
      rcases List.mem_cons.mp hc with hh | hh
      · rw [hh]
        exact (List.Nodup.of_append_left h : (id d).Nodup)
      · exact ih hh (List.Nodup.of_append_right h)

theorem two_le_length_of_mem_ne {c : List γ} {a b : γ}
    (ha : a ∈ c) (hb : b ∈ c) (hne : a ≠ b) : 2 ≤ c.length := by
  cases c with
  | nil => cases ha
  | cons x t =>
      cases t with
      | nil =>
          rw [List.mem_singleton] at ha hb
          exact absurd (ha.trans hb.symm) hne
      | cons y t2 =>
          rw [List.length_cons, List.length_cons]
          omega

theorem rs_ne_reach {g : Graph α} {a b : α} (h : RS g a b) (hne : a ≠ b) :
    Reach g a b := by
  rcases (Relation.reflTransGen_iff_eq_or_transGen.mp h) with he | ht
  · exact absurd he.symm hne
  · exact ht

/-- C5: `cyclic()` is by definition `#scc < #nodes`; but on duplicate-free,
successor-closed graphs that count is strict exactly when two DISTINCT nodes
are mutually reachable — a self-loop is a directed cycle the test misses, so
`cyclic()` does not detect every directed cycle. -/
theorem C5_cyclic_scc (g : Graph α) (hnd : g.WF) (hcl : Closed g) :
    (g.cyclic = true ↔ g.scc.length < g.nodesList.length) ∧
    (g.cyclic = true ↔ ∃ a b, a ≠ b ∧ Reach g a b ∧ Reach g b a) := by
  have hfirst : g.cyclic = true ↔ g.scc.length < g.nodesList.length := by
    unfold Graph.cyclic
    exact decide_eq_true_iff
  refine ⟨hfirst, hfirst.trans ?_⟩
  obtain ⟨s, hscc, hI, hstk, hall⟩ := scc_final_spec g hcl
  have hmem : ∀ x, x ∈ g.nodesList ↔ x ∈ s.cc.flatMap id := by
    intro x
    constructor
    · intro hx
      rcases (hI.part_iff x).mp (hall x hx) with hh | hh
      · rw [hstk] at hh
        cases hh
      · exact hh
    · intro hx
      exact hI.disc_node x ((hI.part_iff x).mpr (Or.inr hx))
  have hperm : g.nodesList.Perm (s.cc.flatMap id) := by
    refine List.perm_of_nodup_nodup_toFinset_eq hnd hI.cc_nodup ?_
    ext x
    simp only [List.mem_toFinset]
    exact hmem x
  have hlen : g.nodesList.length = (s.cc.map List.length).sum := by
    rw [hperm.length_eq, flatMap_id_length]
  rw [hscc, hlen, count_lt_sum s.cc hI.cc_nonempty]
  constructor
  · rintro ⟨c, hc, h2⟩
    have hcnd : c.Nodup := nodup_of_mem_flatMap hc hI.cc_nodup
    cases c with
    | nil => simp at h2
    | cons x t =>
        cases t with
        | nil => simp at h2
        | cons y t2 =>
            have hxy : x ≠ y := by
              intro he
              have := (List.nodup_cons.mp hcnd).1
              rw [he] at this
              exact this (List.mem_cons_self ..)
            have hx : x ∈ y :: t2 → False := fun hh => (List.nodup_cons.mp hcnd).1 hh
            refine ⟨x, y, hxy, ?_, ?_⟩
            · exact rs_ne_reach (hI.cc_mutual _ hc x (List.mem_cons_self ..) y
                (List.mem_cons_of_mem _ (List.mem_cons_self ..))) hxy
            · exact rs_ne_reach (hI.cc_mutual _ hc y
                (List.mem_cons_of_mem _ (List.mem_cons_self ..)) x
                (List.mem_cons_self ..)) hxy.symm
  · rintro ⟨a, b, hne, hab, hba⟩
    obtain ⟨c0, hc0, _⟩ := (Relation.TransGen.head'_iff.mp hab)
    have hanode : a ∈ g.nodesList := succ_owner_mem hc0
    obtain ⟨comp, hcomp, hacomp⟩ := List.mem_flatMap.mp ((hmem a).mp hanode)
    have hbcomp : b ∈ comp := hI.cc_maximal comp hcomp a hacomp b
      hab.to_reflTransGen hba.to_reflTransGen
    exact ⟨comp, hcomp, two_le_length_of_mem_ne hacomp hbcomp hne⟩

/-- C5 counterexample: the one-node self-loop graph `{0: [0]}` contains a
directed cycle (`0` reaches itself along an edge), yet `cyclic()` reports
`false` — its single SCC count equals its node count. -/
theorem C5_cyclic_counterexample :
    (Graph.mk [(0, [0])] : Graph Nat).cyclic = false ∧
    Reach (Graph.mk [(0, [0])] : Graph Nat) 0 0 := by
  constructor
  · decide
  · exact Relation.TransGen.single (by decide)

/-- Witness for C5 on the two-node cycle `{0: [1], 1: [0]}`: hypotheses hold
and `cyclic()` is `true` with `0` and `1` mutually reachable. -/
theorem C5_cyclic_scc_witness :
    ((Graph.mk [(0, [1]), (1, [0])] : Graph Nat).WF ∧
      Closed (Graph.mk [(0, [1]), (1, [0])] : Graph Nat)) ∧
    ((Graph.mk [(0, [1]), (1, [0])] : Graph Nat).cyclic = true ↔
      ∃ a b, a ≠ b ∧ Reach (Graph.mk [(0, [1]), (1, [0])] : Graph Nat) a b ∧
        Reach (Graph.mk [(0, [1]), (1, [0])] : Graph Nat) b a) :=
  ⟨⟨by unfold Graph.WF; decide, by unfold Closed; decide⟩,
    (C5_cyclic_scc (Graph.mk [(0, [1]), (1, [0])])
      (by unfold Graph.WF; decide) (by unfold Closed; decide)).2⟩

/-- Witness for C9 at the empty coordinator and at a one-step coordinator
whose single step has no dependencies. -/
theorem C9_missing_source_witness :
    Coordinator.init.verify [] = .error .keyErrorSource ∧
    Coordinator.init.leavesC = .ok [] ∧
    (Coordinator.mk [("s0", stLone)] (Graph.mk [("_source", [])]) false).leavesC =
      .error .keyErrorSource ∧
    (Coordinator.mk [("s0", stLone)] (Graph.mk [("_source", [])]) false).runModel
      .vNone [] = .err .keyErrorSource := by
  refine ⟨(C9_missing_source Coordinator.init (by decide)).2.2.1 [],
    (C9_missing_source Coordinator.init (by decide)).2.2.2.2.1 rfl,
    (C9_missing_source (Coordinator.mk [("s0", stLone)] (Graph.mk [("_source", [])])
      false) (by decide)).2.2.2.1 (List.cons_ne_nil _ _),
    (C9_missing_source (Coordinator.mk [("s0", stLone)] (Graph.mk [("_source", [])])
      false) (by decide)).2.2.2.2.2 rfl .vNone []⟩

end PyCoord
